import Mathlib

/-!
Space Hell: the state update of the game loop.

A shallow embedding of `main.c`: the event handlers (key-down, key-up), the
per-frame update (star scroll, player integration with `CLAMP`, the bullet
loop) and the macros and constants they use.

* C `float` is modelled by `F32`: a finite value `fin q` with `q` rational, the
  two infinities, or NaN.  Every arithmetic operation rounds to nearest, ties
  to even (`f32round`), with gradual underflow and overflow to infinity, so the
  operations return binary32 numbers only.  Zero is unsigned: the program never
  divides by a variable and never inspects a sign bit, so `-0.0f` and `0.0f`
  are indistinguishable in it.
* C `int` is modelled by `Int`; operations whose C behaviour is undefined
  (conversion of an out-of-range `float`, `abs (INT_MIN)`, overflow of `+`,
  remainder by zero, a write past the end of `bullets`) return a `Fault`.
* Rendering, timing (`delta_time`, used by nothing) and the enemy array (never
  read) are not part of the model.
-/

namespace SpaceHell

/-! ## binary32 arithmetic -/

/-- Nearest integer to a rational, a tie going to the even neighbour. -/
def roundNearestEven (x : ℚ) : ℤ :=
  let n := ⌊x⌋
  let f := x - n
  if f < 1 / 2 then n
  else if 1 / 2 < f then n + 1
  else if n % 2 = 0 then n else n + 1

/-- Rounding of a rational to binary32 precision (24-bit significand, least
exponent `-126`, so subnormals are multiples of `2 ^ (-149)`), the exponent
unbounded above; `F32.ofRat` adds the overflow to infinity. -/
def f32round (q : ℚ) : ℚ :=
  if q = 0 then 0
  else
    let e := max (Int.log 2 |q|) (-126)
    roundNearestEven (q / 2 ^ (e - 23)) * 2 ^ (e - 23)

/-- A C `float`. -/
inductive F32 where
  | fin (q : ℚ)
  | pinf
  | ninf
  | nan
  deriving DecidableEq

namespace F32

/-- The `float` nearest to a rational: a rounded magnitude of `2 ^ 128` or more
overflows to an infinity. -/
def ofRat (q : ℚ) : F32 :=
  let r := f32round q
  if 2 ^ 128 ≤ r then pinf else if r ≤ -2 ^ 128 then ninf else fin r

/-- Conversion `int -> float`. -/
def ofInt (i : ℤ) : F32 := ofRat i

/-- Unary minus. -/
def neg : F32 → F32
  | fin q => fin (-q)
  | pinf => ninf
  | ninf => pinf
  | nan => nan

/-- Addition `a + b`. -/
def add : F32 → F32 → F32
  | nan, _ => nan
  | _, nan => nan
  | pinf, ninf => nan
  | ninf, pinf => nan
  | pinf, _ => pinf
  | _, pinf => pinf
  | ninf, _ => ninf
  | _, ninf => ninf
  | fin a, fin b => ofRat (a + b)

/-- Subtraction `a - b`. -/
def sub (a b : F32) : F32 := add a (neg b)

/-- Sign-directed infinity: the result of `inf * x` and `inf / x` for `x` of the
given sign, NaN for `x = 0`. -/
def infTimes (positive : Bool) (q : ℚ) : F32 :=
  if q = 0 then nan else if (0 < q) = positive then pinf else ninf

/-- Multiplication `a * b`. -/
def mul : F32 → F32 → F32
  | nan, _ => nan
  | _, nan => nan
  | pinf, pinf => pinf
  | pinf, ninf => ninf
  | ninf, pinf => ninf
  | ninf, ninf => pinf
  | pinf, fin b => infTimes true b
  | ninf, fin b => infTimes false b
  | fin a, pinf => infTimes true a
  | fin a, ninf => infTimes false a
  | fin a, fin b => ofRat (a * b)

/-- Division `a / b`.  A finite non-zero value divided by zero is an infinity
of the sign of the dividend (the zero of the model is `+0`). -/
def div : F32 → F32 → F32
  | nan, _ => nan
  | _, nan => nan
  | pinf, pinf => nan
  | pinf, ninf => nan
  | ninf, pinf => nan
  | ninf, ninf => nan
  | pinf, fin b => if 0 ≤ b then pinf else ninf
  | ninf, fin b => if 0 ≤ b then ninf else pinf
  | fin _, pinf => fin 0
  | fin _, ninf => fin 0
  | fin a, fin b => if b = 0 then infTimes true a else ofRat (a / b)

/-- Comparison `a < b`; false as soon as an operand is NaN. -/
def lt : F32 → F32 → Bool
  | fin a, fin b => decide (a < b)
  | fin _, pinf => true
  | ninf, fin _ => true
  | ninf, pinf => true
  | _, _ => false

/-- Comparison `a > b`. -/
def gt (a b : F32) : Bool := lt b a

end F32

/-! ## C integers and undefined behaviour -/

/-- What an execution with undefined behaviour is mapped to. -/
inductive Fault where
  | divByZero
  | outOfBounds
  | intConversion
  | intOverflow
  deriving DecidableEq

/-- Smallest `int`. -/
def INT_MIN : ℤ := -2 ^ 31

/-- Largest `int`. -/
def INT_MAX : ℤ := 2 ^ 31 - 1

/-- Integral part of a rational (truncation toward zero). -/
def truncQ (q : ℚ) : ℤ := if 0 ≤ q then ⌊q⌋ else ⌈q⌉

/-- Conversion `(int) x`: the integral part, undefined when it is not an `int`
(or `x` is not finite). -/
def F32.toInt : F32 → Except Fault ℤ
  | .fin q => if INT_MIN ≤ truncQ q ∧ truncQ q ≤ INT_MAX then .ok (truncQ q) else .error .intConversion
  | _ => .error .intConversion

/-- The library function `abs`: undefined at `INT_MIN`. -/
def cAbs (i : ℤ) : Except Fault ℤ :=
  if i = INT_MIN then .error .intOverflow else .ok |i|

/-- The sum `a + b` of two `int`s: undefined on overflow. -/
def cAdd (a b : ℤ) : Except Fault ℤ :=
  if INT_MIN ≤ a + b ∧ a + b ≤ INT_MAX then .ok (a + b) else .error .intOverflow

/-- The remainder `a % b` of two `int`s (sign of the dividend): undefined for
`b = 0` and for `INT_MIN % -1`. -/
def cRem (a b : ℤ) : Except Fault ℤ :=
  if b = 0 then .error .divByZero
  else if a = INT_MIN ∧ b = -1 then .error .intOverflow
  else .ok (Int.tmod a b)

/-! ## Macros and constants -/

/-- The macro `MAX(a, b) ((a > b) ? a : b)`. -/
def MAX (a b : F32) : F32 := if F32.gt a b then a else b

/-- The macro `MIN(a, b) ((a < b) ? a : b)`. -/
def MIN (a b : F32) : F32 := if F32.lt a b then a else b

/-- The macro `CLAMP(x, min, max) MIN(MAX(x, min), max)`. -/
def CLAMP (x lo hi : F32) : F32 := MIN (MAX x lo) hi

def INIT_SCREEN_WIDTH : ℤ := 800
def INIT_SCREEN_HEIGHT : ℤ := 600
def INIT_GAME_WIDTH : ℤ := 400

/-- The macro `PLAYER_W`, `(int)( 256 * 0.2f )`: the product is a `float`
product of `256` converted to `float` and the literal `0.2f`. -/
def PLAYER_W : ℤ :=
  match F32.toInt (F32.mul (F32.ofInt 256) (F32.ofRat (2 / 10))) with
  | .ok i => i
  | .error _ => 0

/-- The macro `PLAYER_H`, `(int)( 256 * 0.2f )`. -/
def PLAYER_H : ℤ :=
  match F32.toInt (F32.mul (F32.ofInt 256) (F32.ofRat (2 / 10))) with
  | .ok i => i
  | .error _ => 0

def STARS_HEIGHT : ℤ := 1024
def PLAYER_SPEED : ℤ := 5
def BULLET_SPEED : ℤ := 5
def MAX_BULLETS : ℕ := 512

/-! ## Data model -/

inductive bullet_type where
  | BULLET
  deriving DecidableEq

structure vec2 where
  x : F32
  y : F32
  deriving DecidableEq

structure bullet where
  type : bullet_type
  vel : vec2
  pos : vec2
  deriving DecidableEq

/-- The variables of `main` that the loop reads and writes.  `bullets` maps an
index to the array element; only indices below `MAX_BULLETS` are inside the
array.  `n_bullets` is an `int` in the source; it starts at `0` and is
decremented only under the loop guard `i < n_bullets`, so it is never negative. -/
structure State where
  stars_top : ℤ
  player_vel : vec2
  player_pos : vec2
  n_bullets : ℕ
  bullets : ℕ → bullet

/-- The local `player_hitbox = {PLAYER_W / 2, PLAYER_H}`, assigned once: an
`int` quotient and an `int`, each converted to `float`. -/
def player_hitbox : vec2 :=
  { x := F32.ofInt (Int.tdiv PLAYER_W 2), y := F32.ofInt PLAYER_H }

/-- The state on entry to the main loop; `mem` is the content of the
uninitialised array `bullets`. -/
def init (mem : ℕ → bullet) : State :=
  { stars_top := 0
    player_vel := { x := F32.ofInt 0, y := F32.ofInt 0 }
    player_pos := { x := F32.ofInt 0, y := F32.div (F32.ofInt (-INIT_SCREEN_HEIGHT)) (F32.ofRat 4) }
    n_bullets := 0
    bullets := mem }

inductive SDL_Scancode where
  | SDL_SCANCODE_D
  | SDL_SCANCODE_A
  | SDL_SCANCODE_W
  | SDL_SCANCODE_S
  | SDL_SCANCODE_SPACE
  | SDL_SCANCODE_UNKNOWN
  deriving DecidableEq

inductive SDL_Event where
  | SDL_QUIT
  | SDL_KEYDOWN (key : SDL_Scancode)
  | SDL_KEYUP (key : SDL_Scancode)
  | SDL_OTHER
  deriving DecidableEq

open SDL_Scancode SDL_Event

/-! ## Event handling -/

/-- The projectile a fire key-down stores:
`{BULLET, {0, BULLET_SPEED}, {player_pos.x, player_pos.y + PLAYER_H / 2}}`,
where `PLAYER_H / 2` is an `int` quotient. -/
def newBullet (player_pos : vec2) : bullet :=
  { type := bullet_type.BULLET
    vel := { x := F32.ofInt 0, y := F32.ofInt BULLET_SPEED }
    pos := { x := player_pos.x, y := F32.add player_pos.y (F32.ofInt (Int.tdiv PLAYER_H 2)) } }

/-- The `SDL_KEYDOWN` branch. -/
def keyDown (s : State) : SDL_Scancode → Except Fault State
  | SDL_SCANCODE_D => .ok { s with player_vel := { s.player_vel with x := F32.ofInt PLAYER_SPEED } }
  | SDL_SCANCODE_A => .ok { s with player_vel := { s.player_vel with x := F32.ofInt (-PLAYER_SPEED) } }
  | SDL_SCANCODE_W => .ok { s with player_vel := { s.player_vel with y := F32.ofInt PLAYER_SPEED } }
  | SDL_SCANCODE_S => .ok { s with player_vel := { s.player_vel with y := F32.ofInt (-PLAYER_SPEED) } }
  | SDL_SCANCODE_SPACE =>
    if s.n_bullets < MAX_BULLETS then
      .ok { s with
        bullets := Function.update s.bullets s.n_bullets (newBullet s.player_pos)
        n_bullets := s.n_bullets + 1 }
    else .error .outOfBounds
  | SDL_SCANCODE_UNKNOWN => .ok s

/-- The `SDL_KEYUP` branch. -/
def keyUp (s : State) (key : SDL_Scancode) : State :=
  if key = SDL_SCANCODE_D ∧ F32.gt s.player_vel.x (F32.ofInt 0) = true then
    { s with player_vel := { s.player_vel with x := F32.ofInt 0 } }
  else if key = SDL_SCANCODE_A ∧ F32.lt s.player_vel.x (F32.ofInt 0) = true then
    { s with player_vel := { s.player_vel with x := F32.ofInt 0 } }
  else if key = SDL_SCANCODE_W ∧ F32.gt s.player_vel.y (F32.ofInt 0) = true then
    { s with player_vel := { s.player_vel with y := F32.ofInt 0 } }
  else if key = SDL_SCANCODE_S ∧ F32.lt s.player_vel.y (F32.ofInt 0) = true then
    { s with player_vel := { s.player_vel with y := F32.ofInt 0 } }
  else s

/-- One event of the polling loop other than `SDL_QUIT` (which leaves the main
loop, see `run`). -/
def handleEvent (s : State) : SDL_Event → Except Fault State
  | SDL_KEYDOWN key => keyDown s key
  | SDL_KEYUP key => .ok (keyUp s key)
  | _ => .ok s

/-! ## Frame update -/

/-- The divisor `(int) (window_h - STARS_HEIGHT * scale_h)` with
`scale_h = (float) window_h / INIT_SCREEN_HEIGHT`. -/
def starsDivisor (window_h : ℤ) : Except Fault ℤ :=
  let scale_h := F32.div (F32.ofInt window_h) (F32.ofInt INIT_SCREEN_HEIGHT)
  F32.toInt (F32.sub (F32.ofInt window_h) (F32.mul (F32.ofInt STARS_HEIGHT) scale_h))

/-- The statements `stars_top += 1; stars_top %= (int) (...)`. -/
def updateStars (window_h stars_top : ℤ) : Except Fault ℤ :=
  match cAdd stars_top 1 with
  | .error e => .error e
  | .ok t =>
    match starsDivisor window_h with
    | .error e => .error e
    | .ok d => cRem t d

/-- Lower and upper clamp bound of `player_pos.x`. -/
def xBounds : F32 × F32 :=
  (F32.div (F32.sub player_hitbox.x (F32.ofInt INIT_GAME_WIDTH)) (F32.ofInt 2),
   F32.div (F32.sub (F32.ofInt INIT_GAME_WIDTH) player_hitbox.x) (F32.ofInt 2))

/-- Lower and upper clamp bound of `player_pos.y`. -/
def yBounds : F32 × F32 :=
  (F32.div (F32.neg (F32.sub (F32.ofInt INIT_SCREEN_HEIGHT) player_hitbox.y)) (F32.ofInt 2),
   F32.div (F32.sub (F32.ofInt INIT_SCREEN_HEIGHT) player_hitbox.y) (F32.ofInt 2))

/-- The two assignments under `// Update player position`. -/
def updatePlayer (pos vel : vec2) : vec2 :=
  { x := CLAMP (F32.add pos.x vel.x) xBounds.1 xBounds.2
    y := CLAMP (F32.add pos.y vel.y) yBounds.1 yBounds.2 }

/-- The statements `bullets[i].pos.x += bullets[i].vel.x;` and the same for `y`. -/
def advance (b : bullet) : bullet :=
  { b with pos := { x := F32.add b.pos.x b.vel.x, y := F32.add b.pos.y b.vel.y } }

/-- The condition of the `if` in the bullet loop:
`abs((int) pos.x) > INIT_GAME_WIDTH / 2 || abs((int) pos.x) > INIT_SCREEN_HEIGHT / 2`.
Both operands of `||` convert the same `pos.x`, so the conversion and `abs`
appear once. -/
def removalTest (b : bullet) : Except Fault Bool :=
  match F32.toInt b.pos.x with
  | .error e => .error e
  | .ok i =>
    match cAbs i with
    | .error e => .error e
    | .ok a => .ok (decide (a > Int.tdiv INIT_GAME_WIDTH 2) || decide (a > Int.tdiv INIT_SCREEN_HEIGHT 2))

/-- The loop `for (int i = 0; i < n_bullets; i++)` from cursor `i` on.  After a
removal the source decrements `i` and the loop header increments it again, so
the cursor stays on the slot that received the last element.  Every index used
is below `n_bullets`, so inside the array as long as `n_bullets ≤ MAX_BULLETS`. -/
def updateBullets (bullets : ℕ → bullet) (n_bullets i : ℕ) : Except Fault ((ℕ → bullet) × ℕ) :=
  if i < n_bullets then
    let bullets1 := Function.update bullets i (advance (bullets i))
    match removalTest (bullets1 i) with
    | .error e => .error e
    | .ok true =>
      updateBullets (Function.update bullets1 i (bullets1 (n_bullets - 1))) (n_bullets - 1) i
    | .ok false => updateBullets bullets1 n_bullets (i + 1)
  else .ok (bullets, n_bullets)
termination_by n_bullets - i
decreasing_by all_goals omega

/-- The block `// UPDATE GAME STATE` for a window of height `window_h` (the width
is used by the render pass only). -/
def update (window_h : ℤ) (s : State) : Except Fault State :=
  match updateStars window_h s.stars_top with
  | .error e => .error e
  | .ok stars_top =>
    match updateBullets s.bullets s.n_bullets 0 with
    | .error e => .error e
    | .ok (bullets, n_bullets) =>
      .ok { stars_top := stars_top
            player_vel := s.player_vel
            player_pos := updatePlayer s.player_pos s.player_vel
            n_bullets := n_bullets
            bullets := bullets }

/-- What the main loop consumes: a polled event, or the end of the polling loop
together with the window size `SDL_GetWindowSize` then reports. -/
inductive Input where
  | event (e : SDL_Event)
  | frame (window_w window_h : ℤ)

/-- The main loop on a sequence of inputs; `SDL_QUIT` leaves the loop. -/
def run (s : State) : List Input → Except Fault State
  | [] => .ok s
  | Input.event SDL_QUIT :: _ => .ok s
  | Input.event e :: rest =>
    match handleEvent s e with
    | .error f => .error f
    | .ok s1 => run s1 rest
  | Input.frame _ h :: rest =>
    match update h s with
    | .error f => .error f
    | .ok s1 => run s1 rest

/-! ## Auxiliary definitions for the statements -/

/-- Some content for the uninitialised array. -/
def zeroMem : ℕ → bullet := fun _ =>
  { type := bullet_type.BULLET, vel := { x := F32.fin 0, y := F32.fin 0 },
    pos := { x := F32.fin 0, y := F32.fin 0 } }

/-- The list of events `SDL_KEYDOWN key` for the keys of a list. -/
def keyDowns (keys : List SDL_Scancode) : List Input :=
  keys.map (fun k => Input.event (SDL_KEYDOWN k))

/-- The `float` a key-down of a direction key stores on its axis (NaN stands for
a key that stores nothing). -/
def implied_speed : SDL_Scancode → F32
  | SDL_SCANCODE_D => F32.fin 5
  | SDL_SCANCODE_W => F32.fin 5
  | SDL_SCANCODE_A => F32.fin (-5)
  | SDL_SCANCODE_S => F32.fin (-5)
  | _ => F32.nan

/-- The y coordinate the specification gives a projectile fired at player height
`py`: half of a player height of `51.2` above it. -/
def spec_fire_y (py : ℚ) : ℚ := py + (512 / 10) / 2

/-- The input `SDL_KEYDOWN SDL_SCANCODE_SPACE`. -/
def fire : Input := Input.event (SDL_KEYDOWN SDL_SCANCODE_SPACE)

/-- Comparison `a <= b` of two `float`s; false as soon as an operand is NaN. -/
def F32.le : F32 → F32 → Bool
  | F32.fin a, F32.fin b => decide (a ≤ b)
  | F32.fin _, F32.pinf => true
  | F32.ninf, F32.fin _ => true
  | F32.ninf, F32.pinf => true
  | F32.pinf, F32.pinf => true
  | F32.ninf, F32.ninf => true
  | _, _ => false

/-- A position is within the clamp bounds of the player update. -/
def inBounds (p : vec2) : Prop :=
  F32.le xBounds.1 p.x = true ∧ F32.le p.x xBounds.2 = true ∧
    F32.le yBounds.1 p.y = true ∧ F32.le p.y yBounds.2 = true

instance (p : vec2) : Decidable (inBounds p) := by
  unfold inBounds
  infer_instance

/-- The value is a `float`: finite values are fixed by the rounding. -/
def F32.isBinary32 : F32 → Prop
  | F32.fin q => f32round q = q
  | _ => True

instance (x : F32) : Decidable x.isBinary32 := by
  cases x <;> simp only [F32.isBinary32] <;> infer_instance

/-- The frame at the initial window size, 800 x 600. -/
def frame600 : Input := Input.frame INIT_SCREEN_WIDTH INIT_SCREEN_HEIGHT

/-- The y coordinate the specification gives the player after `k` frames of W
held from `-150`: the upper bound computed with a player height of `51.2`. -/
def spec_held_y (k : ℕ) : ℚ := min (-150 + 5 * k) ((600 - 512 / 10) / 2)

/-- Player position at the end of a run, if the run has defined behaviour. -/
def posAfter (s : State) (inputs : List Input) : Option vec2 :=
  match run s inputs with
  | .ok s1 => some s1.player_pos
  | .error _ => none

/-- The live collection: the first `n` elements of the array. -/
def live (a : ℕ → bullet) (n : ℕ) : List bullet := (List.range n).map a

/-- The removal test is evaluated without a fault and is false. -/
def survives (b : bullet) : Bool :=
  match removalTest b with
  | .ok false => true
  | _ => false

/-- The removal test of a projectile has defined behaviour: its `x` is finite,
the integral part is an `int`, and not `INT_MIN` (where `abs` is undefined). -/
def testDefined (b : bullet) : Prop :=
  match b.pos.x with
  | F32.fin q => INT_MIN < truncQ q ∧ truncQ q ≤ INT_MAX
  | _ => False

instance (b : bullet) : Decidable (testDefined b) := by
  unfold testDefined
  split <;> infer_instance

/-- What holds of the player and of every live projectile in a state reached
from the initial one: `vel.x` of the player is `-5`, `0` or `5`; the player `x`
is a multiple of `0.5` in `[-187.5, 187.5]`; every live projectile has
`vel.x = 0` and an `x` that is a multiple of `0.5` in `[-187.5, 187.5]`; the
live count is at most `MAX_BULLETS`, so the loops stay inside the array. -/
def Reach (s : State) : Prop :=
  (∃ v : ℤ, s.player_vel.x = F32.fin v ∧ (v = -5 ∨ v = 0 ∨ v = 5)) ∧
  (∃ m : ℤ, s.player_pos.x = F32.fin ((m : ℚ) / 2) ∧ |m| ≤ 375) ∧
  s.n_bullets ≤ MAX_BULLETS ∧
  ∀ j, j < s.n_bullets →
    (s.bullets j).vel.x = F32.fin 0 ∧
      ∃ m : ℤ, (s.bullets j).pos.x = F32.fin ((m : ℚ) / 2) ∧ |m| ≤ 375

/-- The input is not a frame, or it is a frame of a window at least 2 high (and
the height is an `int`). -/
def tallFrame : Input → Prop
  | Input.frame _ h => 2 ≤ h ∧ h < 2 ^ 31
  | _ => True

instance (inp : Input) : Decidable (tallFrame inp) := by
  cases inp <;> simp only [tallFrame] <;> infer_instance

/-- The modulus of the star scroll as the specification words it:
`max(1, window_height - starfield_asset_height * scale_h)`, truncated. -/
def spec_modulus (h : ℤ) : ℤ := max 1 (truncQ ((h : ℚ) - 1024 * ((h : ℚ) / 600)))

/-- The star scroll as the specification words it:
`stars_top = (stars_top + 1) mod max(1, ...)`. -/
def spec_stars_top (h s : ℤ) : ℤ := (s + 1) % spec_modulus h

/-- A state for the examples: the player at the start position, moving right. -/
def movingRight : State :=
  { stars_top := 0
    player_vel := { x := F32.fin 5, y := F32.fin 0 }
    player_pos := { x := F32.fin 0, y := F32.fin (-150) }
    n_bullets := 0
    bullets := zeroMem }

/-- A projectile for the examples: at `(x, 0)` with velocity `(vx, 5)`. -/
def demoBullet (x vx : ℚ) : bullet :=
  { type := bullet_type.BULLET
    vel := { x := F32.fin vx, y := F32.fin 5 }
    pos := { x := F32.fin x, y := F32.fin 0 } }

/-- An array for the examples.  Index 0: `x = 199.5`, `vel.x = 1.5`; index 1:
`x = 202`, `vel.x = -1.5`; index 2: `x = -201.5`, `vel.x = 1`; from index 3 on:
`x = -199`, `vel.x = -2`. -/
def demoMem : ℕ → bullet := fun j =>
  if j = 0 then demoBullet (399 / 2) (3 / 2)
  else if j = 1 then demoBullet 202 (-3 / 2)
  else if j = 2 then demoBullet (-403 / 2) 1
  else demoBullet (-199) (-2)

/-! ## Facts about binary32 rounding -/

theorem roundNearestEven_intCast (n : ℤ) : roundNearestEven (n : ℚ) = n := by
  simp [roundNearestEven]

theorem abs_roundNearestEven_sub_le (x : ℚ) : |(roundNearestEven x : ℚ) - x| ≤ 1 / 2 := by
  have h1 := Int.floor_le x
  have h2 := Int.lt_floor_add_one x
  unfold roundNearestEven
  simp only
  split_ifs with ha hb hc
  · rw [abs_le]; constructor <;> linarith
  · rw [abs_le]; push_cast; constructor <;> linarith
  · rw [abs_le]; constructor <;> linarith
  · rw [abs_le]; push_cast; constructor <;> linarith

/-- A value `m * 2 ^ k` with a 24-bit significand and `k ≥ -149` is a binary32 number. -/
theorem f32round_exact (m k : ℤ) (hm : |m| < 2 ^ 24) (hk : -149 ≤ k) :
    f32round ((m : ℚ) * 2 ^ k) = (m : ℚ) * 2 ^ k := by
  unfold f32round
  split_ifs with h0
  · exact h0.symm
  · have hm0 : m ≠ 0 := by
      rintro rfl; simp at h0
    have h2 : (0 : ℚ) < 2 := by norm_num
    have hpos : (0 : ℚ) < |(m : ℚ) * 2 ^ k| := abs_pos.mpr h0
    have hlog : Int.log 2 |(m : ℚ) * 2 ^ k| < k + 24 := by
      rw [← Int.lt_zpow_iff_log_lt (by norm_num) hpos]
      push_cast
      rw [abs_mul, abs_of_pos (zpow_pos h2 k), zpow_add₀ (by norm_num : (2 : ℚ) ≠ 0), mul_comm]
      apply mul_lt_mul_of_pos_left _ (zpow_pos h2 k)
      have : |(m : ℚ)| = ((|m| : ℤ) : ℚ) := by simp
      rw [this]
      have h3 : ((|m| : ℤ) : ℚ) < ((2 ^ 24 : ℤ) : ℚ) := by exact_mod_cast hm
      norm_num at h3 ⊢
      exact h3
    simp only
    set e := max (Int.log 2 |(m : ℚ) * 2 ^ k|) (-126) with he
    have hek : e - 23 ≤ k := by
      rcases max_cases (Int.log 2 |(m : ℚ) * 2 ^ k|) (-126) with ⟨h, _⟩ | ⟨h, _⟩ <;> omega
    obtain ⟨d, hd⟩ : ∃ d : ℕ, k = (e - 23) + d := ⟨(k - (e - 23)).toNat, by omega⟩
    have hu : (2 : ℚ) ^ (e - 23) ≠ 0 := (zpow_pos h2 _).ne.symm
    have hk2 : (2 : ℚ) ^ k = 2 ^ (e - 23) * 2 ^ d := by
      conv_lhs => rw [hd]
      rw [zpow_add₀ (by norm_num : (2 : ℚ) ≠ 0), zpow_natCast]
    have hq : (m : ℚ) * 2 ^ k / 2 ^ (e - 23) = ((m * 2 ^ d : ℤ) : ℚ) := by
      rw [hk2]
      push_cast
      field_simp
      ring
    rw [hq, roundNearestEven_intCast, hk2]
    push_cast
    ring

/-- In the normal range binary32 rounding has relative error at most `2 ^ (-24)`. -/
theorem f32round_rel (q : ℚ) (hq : (2 : ℚ) ^ (-126 : ℤ) ≤ |q|) :
    |f32round q - q| ≤ |q| * 2 ^ (-24 : ℤ) := by
  have h2 : (0 : ℚ) < 2 := by norm_num
  have hpos : (0 : ℚ) < |q| := lt_of_lt_of_le (zpow_pos h2 _) hq
  have h0 : q ≠ 0 := abs_pos.mp hpos
  unfold f32round
  rw [if_neg h0]
  simp only
  have hlog : -126 ≤ Int.log 2 |q| := by
    rw [← Int.zpow_le_iff_le_log (by norm_num) hpos]
    exact_mod_cast hq
  rw [max_eq_left hlog]
  set e := Int.log 2 |q| with he
  have hu : (0 : ℚ) < 2 ^ (e - 23) := zpow_pos h2 _
  have hle : (2 : ℚ) ^ e ≤ |q| := by
    have := Int.zpow_log_le_self (R := ℚ) (b := 2) (by norm_num) hpos
    exact_mod_cast this
  have hr := abs_roundNearestEven_sub_le (q / 2 ^ (e - 23))
  have key : (roundNearestEven (q / 2 ^ (e - 23)) : ℚ) * 2 ^ (e - 23) - q
      = ((roundNearestEven (q / 2 ^ (e - 23)) : ℚ) - q / 2 ^ (e - 23)) * 2 ^ (e - 23) := by
    field_simp
  rw [key, abs_mul, abs_of_pos hu]
  have h24 : (2 : ℚ) ^ (e - 23) * (1 / 2) = 2 ^ e * 2 ^ (-24 : ℤ) := by
    rw [show e - 23 = e + (-23) by ring, zpow_add₀ (by norm_num : (2 : ℚ) ≠ 0)]
    norm_num
    ring
  calc |(roundNearestEven (q / 2 ^ (e - 23)) : ℚ) - q / 2 ^ (e - 23)| * 2 ^ (e - 23)
      ≤ 1 / 2 * 2 ^ (e - 23) := by
        apply mul_le_mul_of_nonneg_right hr hu.le
    _ = 2 ^ e * 2 ^ (-24 : ℤ) := by rw [← h24]; ring
    _ ≤ |q| * 2 ^ (-24 : ℤ) := by
        apply mul_le_mul_of_nonneg_right hle (zpow_pos h2 _).le

theorem f32round_int (n : ℤ) (hn : |n| < 2 ^ 24) : f32round (n : ℚ) = n := by
  have := f32round_exact n 0 hn (by norm_num)
  simpa using this

theorem f32round_half (m : ℤ) (hm : |m| < 2 ^ 24) : f32round ((m : ℚ) / 2) = (m : ℚ) / 2 := by
  have := f32round_exact m (-1) hm (by norm_num)
  simpa [div_eq_mul_inv] using this

theorem ofRat_half (m : ℤ) (hm : |m| < 2 ^ 24) : F32.ofRat ((m : ℚ) / 2) = F32.fin ((m : ℚ) / 2) := by
  have hb : |(m : ℚ)| < 2 ^ 24 := by exact_mod_cast hm
  have hb2 := abs_lt.mp hb
  unfold F32.ofRat
  simp only [f32round_half m hm]
  rw [if_neg (by norm_num; linarith), if_neg (by norm_num; linarith)]

theorem ofRat_int (n : ℤ) (hn : |n| < 2 ^ 23) : F32.ofRat (n : ℚ) = F32.fin (n : ℚ) := by
  have := ofRat_half (2 * n) (by rw [abs_mul]; norm_num at hn ⊢; omega)
  simpa using this

theorem ofInt_small (n : ℤ) (hn : |n| < 2 ^ 23) : F32.ofInt n = F32.fin (n : ℚ) :=
  ofRat_int n hn

theorem f32round_of_binade (q : ℚ) (e : ℤ) (he : -126 ≤ e) (h1 : (2 : ℚ) ^ e ≤ |q|)
    (h2 : |q| < (2 : ℚ) ^ (e + 1)) :
    f32round q = roundNearestEven (q / 2 ^ (e - 23)) * 2 ^ (e - 23) := by
  have hpos : (0 : ℚ) < |q| := lt_of_lt_of_le (zpow_pos (by norm_num) _) h1
  have h0 : q ≠ 0 := abs_pos.mp hpos
  have hl1 : e ≤ Int.log 2 |q| := by
    rw [← Int.zpow_le_iff_le_log (by norm_num) hpos]; exact_mod_cast h1
  have hl2 : Int.log 2 |q| < e + 1 := by
    rw [← Int.lt_zpow_iff_log_lt (by norm_num) hpos]; exact_mod_cast h2
  have hl : Int.log 2 |q| = e := by omega
  unfold f32round
  rw [if_neg h0]
  simp only [hl, max_eq_left he]

theorem roundNearestEven_eq (x : ℚ) (n : ℤ) (h1 : (n : ℚ) - 1 / 2 < x) (h2 : x < n + 1 / 2) :
    roundNearestEven x = n := by
  unfold roundNearestEven
  simp only
  have hf1 := Int.floor_le x
  have hf2 := Int.lt_floor_add_one x
  have hcases : ⌊x⌋ = n ∨ ⌊x⌋ = n - 1 := by
    have a1 : ⌊x⌋ < n + 1 := by
      have : (⌊x⌋ : ℚ) < (n : ℚ) + 1 := by linarith
      exact_mod_cast this
    have a2 : n - 2 < ⌊x⌋  := by
      have : (n : ℚ) - 2 < (⌊x⌋ : ℚ) := by linarith
      exact_mod_cast this
    omega
  rcases hcases with h | h
  · rw [h]; rw [if_pos (by linarith)]
  · rw [h]; push_cast
    rw [if_neg (by linarith), if_pos (by linarith)]
    ring

theorem f32round_literal : f32round (2 / 10) = 13421773 / 67108864 := by
  rw [f32round_of_binade (2 / 10) (-3) (by norm_num) (by norm_num [abs_of_pos]) (by norm_num [abs_of_pos]),
    roundNearestEven_eq _ 13421773 (by norm_num) (by norm_num)]
  norm_num

theorem PLAYER_W_eq : PLAYER_W = 51 := by
  have h1 : F32.ofRat (2 / 10) = F32.fin (13421773 / 67108864) := by
    unfold F32.ofRat
    simp only [f32round_literal]
    norm_num
  have h2 : F32.ofRat ((256 : ℚ) * (13421773 / 67108864)) = F32.fin (13421773 / 262144) := by
    have h := f32round_exact 13421773 (-18) (by norm_num) (by norm_num)
    have e : ((13421773 : ℤ) : ℚ) * 2 ^ (-18 : ℤ) = 256 * (13421773 / 67108864) := by norm_num
    rw [e] at h
    unfold F32.ofRat
    simp only [h]
    norm_num
  have h3 : truncQ (13421773 / 262144) = 51 := by
    unfold truncQ
    rw [if_pos (by norm_num), Int.floor_eq_iff]
    norm_num
  unfold PLAYER_W
  rw [ofInt_small 256 (by norm_num), h1]
  simp only [F32.mul]
  push_cast
  rw [h2]
  simp [F32.toInt, h3, INT_MIN, INT_MAX]

theorem PLAYER_H_eq : PLAYER_H = 51 := PLAYER_W_eq

theorem ofRat_eq_fin (q : ℚ) (m : ℤ) (h : q = (m : ℚ) / 2) (hm : |m| < 2 ^ 24) :
    F32.ofRat q = F32.fin q := by
  rw [h]; exact ofRat_half m hm

theorem add_fin (a b : ℚ) : F32.add (F32.fin a) (F32.fin b) = F32.ofRat (a + b) := rfl

theorem sub_fin (a b : ℚ) : F32.sub (F32.fin a) (F32.fin b) = F32.ofRat (a - b) := by
  simp [F32.sub, F32.neg, add_fin, sub_eq_add_neg]

theorem mul_fin (a b : ℚ) : F32.mul (F32.fin a) (F32.fin b) = F32.ofRat (a * b) := rfl

theorem div_fin (a b : ℚ) (hb : b ≠ 0) : F32.div (F32.fin a) (F32.fin b) = F32.ofRat (a / b) := by
  simp [F32.div, hb]

theorem player_hitbox_eq : player_hitbox = { x := F32.fin 25, y := F32.fin 51 } := by
  unfold player_hitbox
  rw [PLAYER_W_eq, PLAYER_H_eq, show Int.tdiv 51 2 = 25 by decide,
    ofInt_small 25 (by norm_num), ofInt_small 51 (by norm_num)]
  norm_num

theorem xBounds_eq : xBounds = (F32.fin (-375 / 2), F32.fin (375 / 2)) := by
  unfold xBounds
  rw [player_hitbox_eq, INIT_GAME_WIDTH, ofInt_small 400 (by norm_num), ofInt_small 2 (by norm_num)]
  simp only [sub_fin]
  rw [ofRat_eq_fin _ (-750) (by norm_num) (by norm_num),
    ofRat_eq_fin _ 750 (by norm_num) (by norm_num),
    div_fin _ _ (by norm_num), div_fin _ _ (by norm_num),
    ofRat_eq_fin _ (-375) (by norm_num) (by norm_num),
    ofRat_eq_fin _ 375 (by norm_num) (by norm_num)]
  norm_num

theorem yBounds_eq : yBounds = (F32.fin (-549 / 2), F32.fin (549 / 2)) := by
  unfold yBounds
  rw [player_hitbox_eq, INIT_SCREEN_HEIGHT, ofInt_small 600 (by norm_num),
    ofInt_small 2 (by norm_num)]
  simp only [sub_fin]
  rw [ofRat_eq_fin _ 1098 (by norm_num) (by norm_num)]
  simp only [F32.neg]
  rw [div_fin _ _ (by norm_num), div_fin _ _ (by norm_num),
    ofRat_eq_fin _ (-549) (by norm_num) (by norm_num),
    ofRat_eq_fin _ 549 (by norm_num) (by norm_num)]
  norm_num

theorem init_eq (mem : ℕ → bullet) :
    init mem =
      { stars_top := 0
        player_vel := { x := F32.fin 0, y := F32.fin 0 }
        player_pos := { x := F32.fin 0, y := F32.fin (-150) }
        n_bullets := 0
        bullets := mem } := by
  unfold init
  rw [INIT_SCREEN_HEIGHT, ofInt_small 0 (by norm_num), ofInt_small (-600) (by norm_num),
    ofRat_eq_fin 4 8 (by norm_num) (by norm_num), div_fin _ _ (by norm_num),
    ofRat_eq_fin _ (-300) (by norm_num) (by norm_num)]
  norm_num

theorem ofInt_speed : F32.ofInt PLAYER_SPEED = F32.fin 5 := by
  rw [PLAYER_SPEED, ofInt_small 5 (by norm_num)]; norm_num

theorem ofInt_neg_speed : F32.ofInt (-PLAYER_SPEED) = F32.fin (-5) := by
  rw [PLAYER_SPEED, ofInt_small (-5) (by norm_num)]; norm_num

theorem ofInt_zero : F32.ofInt 0 = F32.fin 0 := by
  rw [ofInt_small 0 (by norm_num)]; norm_num

theorem newBullet_eq (p : vec2) :
    newBullet p =
      { type := bullet_type.BULLET
        vel := { x := F32.fin 0, y := F32.fin 5 }
        pos := { x := p.x, y := F32.add p.y (F32.fin 25) } } := by
  unfold newBullet
  rw [PLAYER_H_eq, show Int.tdiv 51 2 = 25 by decide, BULLET_SPEED, ofInt_zero,
    ofInt_small 5 (by norm_num), ofInt_small 25 (by norm_num)]
  norm_num

theorem MAX_fin (a b : ℚ) : MAX (F32.fin a) (F32.fin b) = F32.fin (max a b) := by
  unfold MAX F32.gt F32.lt
  by_cases h : b < a
  · simp [h, max_eq_left h.le]
  · simp [h, max_eq_right (not_lt.mp h)]

theorem MIN_fin (a b : ℚ) : MIN (F32.fin a) (F32.fin b) = F32.fin (min a b) := by
  unfold MIN F32.lt
  by_cases h : a < b
  · simp [h, min_eq_left h.le]
  · simp [h, min_eq_right (not_lt.mp h)]

theorem CLAMP_fin (x lo hi : ℚ) :
    CLAMP (F32.fin x) (F32.fin lo) (F32.fin hi) = F32.fin (min (max x lo) hi) := by
  unfold CLAMP
  rw [MAX_fin, MIN_fin]

/-- Whatever `x` is (NaN and the infinities included), `CLAMP` returns a finite
value between the bounds. -/
theorem CLAMP_mem (x : F32) (lo hi : ℚ) (h : lo ≤ hi) :
    ∃ r : ℚ, CLAMP x (F32.fin lo) (F32.fin hi) = F32.fin r ∧ lo ≤ r ∧ r ≤ hi := by
  cases x with
  | fin q =>
    refine ⟨min (max q lo) hi, CLAMP_fin q lo hi, ?_, min_le_right _ _⟩
    exact le_min (le_max_right _ _) h
  | pinf =>
    refine ⟨hi, ?_, h, le_refl _⟩
    simp [CLAMP, MAX, MIN, F32.gt, F32.lt]
  | ninf =>
    refine ⟨lo, ?_, le_refl _, h⟩
    have e : MAX F32.ninf (F32.fin lo) = F32.fin lo := by simp [MAX, F32.gt, F32.lt]
    rw [CLAMP, e, MIN_fin, min_eq_left h]
  | nan =>
    refine ⟨lo, ?_, le_refl _, h⟩
    have e : MAX F32.nan (F32.fin lo) = F32.fin lo := by simp [MAX, F32.gt, F32.lt]
    rw [CLAMP, e, MIN_fin, min_eq_left h]

theorem xBounds_fst : xBounds.1 = F32.fin (-375 / 2) := by rw [xBounds_eq]

theorem xBounds_snd : xBounds.2 = F32.fin (375 / 2) := by rw [xBounds_eq]

theorem yBounds_fst : yBounds.1 = F32.fin (-549 / 2) := by rw [yBounds_eq]

theorem yBounds_snd : yBounds.2 = F32.fin (549 / 2) := by rw [yBounds_eq]

theorem updatePlayer_eq (pos vel : vec2) :
    updatePlayer pos vel =
      { x := CLAMP (F32.add pos.x vel.x) (F32.fin (-375 / 2)) (F32.fin (375 / 2))
        y := CLAMP (F32.add pos.y vel.y) (F32.fin (-549 / 2)) (F32.fin (549 / 2)) } := by
  unfold updatePlayer
  rw [xBounds_fst, xBounds_snd, yBounds_fst, yBounds_snd]

/-! ## Facts about the event handlers and `run` -/

theorem keyUp_D (s : State) :
    keyUp s SDL_SCANCODE_D =
      if F32.gt s.player_vel.x (F32.fin 0) = true then
        { s with player_vel := { s.player_vel with x := F32.fin 0 } }
      else s := by
  simp [keyUp, ofInt_zero]

theorem keyUp_A (s : State) :
    keyUp s SDL_SCANCODE_A =
      if F32.lt s.player_vel.x (F32.fin 0) = true then
        { s with player_vel := { s.player_vel with x := F32.fin 0 } }
      else s := by
  simp [keyUp, ofInt_zero]

theorem keyUp_W (s : State) :
    keyUp s SDL_SCANCODE_W =
      if F32.gt s.player_vel.y (F32.fin 0) = true then
        { s with player_vel := { s.player_vel with y := F32.fin 0 } }
      else s := by
  simp [keyUp, ofInt_zero]

theorem keyUp_S (s : State) :
    keyUp s SDL_SCANCODE_S =
      if F32.lt s.player_vel.y (F32.fin 0) = true then
        { s with player_vel := { s.player_vel with y := F32.fin 0 } }
      else s := by
  simp [keyUp, ofInt_zero]

theorem keyDown_D (s : State) :
    keyDown s SDL_SCANCODE_D = .ok { s with player_vel := { s.player_vel with x := F32.fin 5 } } := by
  simp [keyDown, ofInt_speed]

theorem keyDown_A (s : State) :
    keyDown s SDL_SCANCODE_A = .ok { s with player_vel := { s.player_vel with x := F32.fin (-5) } } := by
  simp [keyDown, ofInt_neg_speed]

theorem keyDown_W (s : State) :
    keyDown s SDL_SCANCODE_W = .ok { s with player_vel := { s.player_vel with y := F32.fin 5 } } := by
  simp [keyDown, ofInt_speed]

theorem keyDown_S (s : State) :
    keyDown s SDL_SCANCODE_S = .ok { s with player_vel := { s.player_vel with y := F32.fin (-5) } } := by
  simp [keyDown, ofInt_neg_speed]

theorem run_nil (s : State) : run s [] = .ok s := rfl

theorem run_event_ok (s s1 : State) (e : SDL_Event) (rest : List Input) (hq : e ≠ SDL_QUIT)
    (h : handleEvent s e = .ok s1) : run s (Input.event e :: rest) = run s1 rest := by
  cases e with
  | SDL_QUIT => exact absurd rfl hq
  | SDL_KEYDOWN k => simp only [run, h]
  | SDL_KEYUP k => simp only [run, h]
  | SDL_OTHER => simp only [run, h]

theorem run_event_error (s : State) (f : Fault) (e : SDL_Event) (rest : List Input)
    (h : handleEvent s e = .error f) : run s (Input.event e :: rest) = .error f := by
  cases e with
  | SDL_QUIT => simp [handleEvent] at h
  | SDL_KEYDOWN k => simp only [run, h]
  | SDL_KEYUP k => simp [handleEvent] at h
  | SDL_OTHER => simp [handleEvent] at h

theorem run_frame_ok (s s1 : State) (w h : ℤ) (rest : List Input)
    (hu : update h s = .ok s1) : run s (Input.frame w h :: rest) = run s1 rest := by
  simp only [run, hu]


theorem keyDowns_x (keys : List SDL_Scancode) (hne : keys ≠ [])
    (hall : ∀ k ∈ keys, k = SDL_SCANCODE_A ∨ k = SDL_SCANCODE_D) (s : State) :
    run s (keyDowns keys) =
      .ok { s with player_vel := { x := implied_speed (keys.getLast hne), y := s.player_vel.y } } := by
  induction keys generalizing s with
  | nil => exact absurd rfl hne
  | cons k rest ih =>
    have hk : ∃ s1, handleEvent s (SDL_KEYDOWN k) = .ok s1 ∧
        s1 = { s with player_vel := { x := implied_speed k, y := s.player_vel.y } } := by
      rcases hall k (List.mem_cons_self _ _) with h | h
      · subst h; exact ⟨_, keyDown_A s, rfl⟩
      · subst h; exact ⟨_, keyDown_D s, rfl⟩
    obtain ⟨s1, h1, e1⟩ := hk
    have hrun : run s (keyDowns (k :: rest)) = run s1 (keyDowns rest) :=
      run_event_ok s s1 _ _ (by simp) h1
    rw [hrun]
    by_cases hr : rest = []
    · subst hr
      simp [keyDowns, run_nil, e1]
    · rw [ih hr (fun k hk => hall k (List.mem_cons_of_mem _ hk)), List.getLast_cons hr, e1]

theorem keyDowns_y (keys : List SDL_Scancode) (hne : keys ≠ [])
    (hall : ∀ k ∈ keys, k = SDL_SCANCODE_W ∨ k = SDL_SCANCODE_S) (s : State) :
    run s (keyDowns keys) =
      .ok { s with player_vel := { x := s.player_vel.x, y := implied_speed (keys.getLast hne) } } := by
  induction keys generalizing s with
  | nil => exact absurd rfl hne
  | cons k rest ih =>
    have hk : ∃ s1, handleEvent s (SDL_KEYDOWN k) = .ok s1 ∧
        s1 = { s with player_vel := { x := s.player_vel.x, y := implied_speed k } } := by
      rcases hall k (List.mem_cons_self _ _) with h | h
      · subst h; exact ⟨_, keyDown_W s, rfl⟩
      · subst h; exact ⟨_, keyDown_S s, rfl⟩
    obtain ⟨s1, h1, e1⟩ := hk
    have hrun : run s (keyDowns (k :: rest)) = run s1 (keyDowns rest) :=
      run_event_ok s s1 _ _ (by simp) h1
    rw [hrun]
    by_cases hr : rest = []
    · subst hr
      simp [keyDowns, run_nil, e1]
    · rw [ih hr (fun k hk => hall k (List.mem_cons_of_mem _ hk)), List.getLast_cons hr, e1]

theorem keyDown_SPACE (s : State) (h : s.n_bullets < MAX_BULLETS) :
    keyDown s SDL_SCANCODE_SPACE =
      .ok { s with
        bullets := Function.update s.bullets s.n_bullets
          { type := bullet_type.BULLET
            vel := { x := F32.fin 0, y := F32.fin 5 }
            pos := { x := s.player_pos.x, y := F32.add s.player_pos.y (F32.fin 25) } }
        n_bullets := s.n_bullets + 1 } := by
  simp only [keyDown, if_pos h, newBullet_eq]

theorem keyDown_SPACE_full (s : State) (h : MAX_BULLETS ≤ s.n_bullets) :
    keyDown s SDL_SCANCODE_SPACE = .error Fault.outOfBounds := by
  simp only [keyDown, if_neg (Nat.not_lt.mpr h)]

theorem add_neg150_25 : F32.add (F32.fin (-150)) (F32.fin 25) = F32.fin (-125) := by
  rw [add_fin, ofRat_eq_fin _ (-250) (by norm_num) (by norm_num)]
  norm_num

theorem fire_run (N : ℕ) (s : State) (h : s.n_bullets + N ≤ MAX_BULLETS) :
    ∃ s1, run s (List.replicate N fire) = .ok s1 ∧ s1.n_bullets = s.n_bullets + N := by
  induction N generalizing s with
  | zero => exact ⟨s, rfl, rfl⟩
  | succ n ih =>
    have hlt : s.n_bullets < MAX_BULLETS := by omega
    have h1 := keyDown_SPACE s hlt
    obtain ⟨s2, hs2, hn2⟩ := ih { s with
        bullets := Function.update s.bullets s.n_bullets
          { type := bullet_type.BULLET
            vel := { x := F32.fin 0, y := F32.fin 5 }
            pos := { x := s.player_pos.x, y := F32.add s.player_pos.y (F32.fin 25) } }
        n_bullets := s.n_bullets + 1 } (show (s.n_bullets + 1) + n ≤ MAX_BULLETS by omega)
    refine ⟨s2, ?_, by rw [hn2]; simp only; omega⟩
    rw [List.replicate_succ, fire, run_event_ok _ _ _ _ (by simp) (by simp only [handleEvent]; exact h1)]
    exact hs2

theorem fire_overflow (N : ℕ) (s : State) (h : s.n_bullets + N = MAX_BULLETS) :
    run s (List.replicate (N + 1) fire) = .error Fault.outOfBounds := by
  induction N generalizing s with
  | zero =>
    rw [List.replicate_succ, fire]
    exact run_event_error _ _ _ _ (by simp only [handleEvent]; exact keyDown_SPACE_full s (by omega))
  | succ n ih =>
    have hlt : s.n_bullets < MAX_BULLETS := by omega
    have h1 := keyDown_SPACE s hlt
    rw [List.replicate_succ, fire, run_event_ok _ _ _ _ (by simp) (by simp only [handleEvent]; exact h1)]
    exact ih { s with
        bullets := Function.update s.bullets s.n_bullets
          { type := bullet_type.BULLET
            vel := { x := F32.fin 0, y := F32.fin 5 }
            pos := { x := s.player_pos.x, y := F32.add s.player_pos.y (F32.fin 25) } }
        n_bullets := s.n_bullets + 1 } (show (s.n_bullets + 1) + n = MAX_BULLETS by omega)

theorem neg125_ne_spec : F32.fin (-125) ≠ F32.ofRat (spec_fire_y (-150)) := by
  have hr := f32round_rel (spec_fire_y (-150)) (by norm_num [spec_fire_y, abs_of_neg])
  have habs : |spec_fire_y (-150)| = 622 / 5 := by norm_num [spec_fire_y, abs_of_neg]
  rw [habs, abs_le] at hr
  have hv : spec_fire_y (-150) = -622 / 5 := by norm_num [spec_fire_y]
  rw [hv] at hr
  obtain ⟨h1, h2⟩ := hr
  rw [hv]
  unfold F32.ofRat
  simp only
  split_ifs
  · simp
  · simp
  · intro h
    injection h with h
    rw [← h] at h1 h2
    norm_num at h1 h2

theorem movingRight_lt : F32.lt movingRight.player_vel.x (F32.fin 0) = false := by
  simp [movingRight, F32.lt]

theorem movingRight_gt : F32.gt movingRight.player_vel.x (F32.fin 0) = true := by
  simp [movingRight, F32.gt, F32.lt]

/-! ## Facts about the player update and invariants of runs -/

theorem le_fin (a b : ℚ) : F32.le (F32.fin a) (F32.fin b) = decide (a ≤ b) := rfl

theorem inBounds_iff (x y : ℚ) :
    inBounds { x := F32.fin x, y := F32.fin y } ↔
      (-375 / 2 ≤ x ∧ x ≤ 375 / 2) ∧ (-549 / 2 ≤ y ∧ y ≤ 549 / 2) := by
  unfold inBounds
  rw [xBounds_fst, xBounds_snd, yBounds_fst, yBounds_snd]
  simp only [le_fin, decide_eq_true_eq]
  tauto

theorem inBounds_fin (pos : vec2) (hb : inBounds pos) :
    ∃ x y : ℚ, pos = { x := F32.fin x, y := F32.fin y } := by
  obtain ⟨px, py⟩ := pos
  unfold inBounds at hb
  rw [xBounds_fst, xBounds_snd, yBounds_fst, yBounds_snd] at hb
  obtain ⟨h1, h2, h3, h4⟩ := hb
  cases px <;> cases py <;> simp [F32.le] at h1 h2 h3 h4
  exact ⟨_, _, rfl⟩

theorem inBounds_updatePlayer (pos vel : vec2) : inBounds (updatePlayer pos vel) := by
  obtain ⟨x, hx, hx1, hx2⟩ := CLAMP_mem (F32.add pos.x vel.x) (-375 / 2) (375 / 2) (by norm_num)
  obtain ⟨y, hy, hy1, hy2⟩ := CLAMP_mem (F32.add pos.y vel.y) (-549 / 2) (549 / 2) (by norm_num)
  have e : updatePlayer pos vel = { x := F32.fin x, y := F32.fin y } := by
    rw [updatePlayer_eq, hx, hy]
  rw [e, inBounds_iff]
  exact ⟨⟨hx1, hx2⟩, hy1, hy2⟩

theorem handleEvent_player_pos (s s1 : State) (e : SDL_Event) (h : handleEvent s e = .ok s1) :
    s1.player_pos = s.player_pos := by
  cases e with
  | SDL_QUIT => simp only [handleEvent, Except.ok.injEq] at h; rw [← h]
  | SDL_OTHER => simp only [handleEvent, Except.ok.injEq] at h; rw [← h]
  | SDL_KEYUP k =>
    simp only [handleEvent, Except.ok.injEq] at h
    rw [← h]
    unfold keyUp
    split_ifs <;> rfl
  | SDL_KEYDOWN k =>
    simp only [handleEvent] at h
    cases k <;> simp only [keyDown] at h
    case SDL_SCANCODE_SPACE =>
      split_ifs at h
      simp only [Except.ok.injEq] at h
      rw [← h]
    all_goals
      simp only [Except.ok.injEq] at h
      rw [← h]

theorem update_player_pos (s s1 : State) (h : ℤ) (hu : update h s = .ok s1) :
    s1.player_pos = updatePlayer s.player_pos s.player_vel := by
  unfold update at hu
  split at hu
  · simp at hu
  · split at hu
    · simp at hu
    · simp only [Except.ok.injEq] at hu
      rw [← hu]

/-- A property of states that every event and every frame update preserve holds
at the end of every run. -/
theorem run_invariant (P : State → Prop)
    (hev : ∀ s e s1, P s → handleEvent s e = .ok s1 → P s1)
    (hup : ∀ s h s1, P s → update h s = .ok s1 → P s1) :
    ∀ (inputs : List Input) (s s1 : State), P s → run s inputs = .ok s1 → P s1 := by
  intro inputs
  induction inputs with
  | nil =>
    intro s s1 hP h
    simp only [run, Except.ok.injEq] at h
    exact h ▸ hP
  | cons inp rest ih =>
    intro s s1 hP h
    cases inp with
    | event e =>
      by_cases hq : e = SDL_QUIT
      · subst hq
        simp only [run, Except.ok.injEq] at h
        exact h ▸ hP
      · cases hh : handleEvent s e with
        | error f => rw [run_event_error s f e rest hh] at h; simp at h
        | ok s2 =>
          rw [run_event_ok s s2 e rest hq hh] at h
          exact ih s2 s1 (hev s e s2 hP hh) h
    | frame w ht =>
      cases hh : update ht s with
      | error f => simp [run, hh] at h
      | ok s2 =>
        rw [run_frame_ok s s2 w ht rest hh] at h
        exact ih s2 s1 (hup s ht s2 hP hh) h

theorem run_inBounds (mem : ℕ → bullet) (inputs : List Input) (s : State)
    (h : run (init mem) inputs = .ok s) : inBounds s.player_pos := by
  refine run_invariant (fun s => inBounds s.player_pos) ?_ ?_ inputs (init mem) s ?_ h
  · intro s e s1 hP hh
    simp only [handleEvent_player_pos s s1 e hh]
    exact hP
  · intro s ht s1 _ hh
    simp only [update_player_pos s s1 ht hh]
    exact inBounds_updatePlayer _ _
  · simp only [init_eq, inBounds_iff]
    norm_num

theorem ofRat_of_isBinary32 (q : ℚ) (h : f32round q = q) (h1 : -(2 : ℚ) ^ 128 < q)
    (h2 : q < (2 : ℚ) ^ 128) : F32.ofRat q = F32.fin q := by
  unfold F32.ofRat
  simp only [h]
  rw [if_neg (not_le.mpr h2), if_neg (not_le.mpr h1)]

theorem updatePlayer_zero (pos : vec2) (hb : inBounds pos) (hx : pos.x.isBinary32)
    (hy : pos.y.isBinary32) : updatePlayer pos { x := F32.fin 0, y := F32.fin 0 } = pos := by
  obtain ⟨x, y, rfl⟩ := inBounds_fin pos hb
  rw [inBounds_iff] at hb
  simp only [F32.isBinary32] at hx hy
  obtain ⟨⟨hx1, hx2⟩, hy1, hy2⟩ := hb
  rw [updatePlayer_eq]
  simp only [add_fin, add_zero]
  rw [ofRat_of_isBinary32 x hx (by norm_num; linarith) (by norm_num; linarith),
    ofRat_of_isBinary32 y hy (by norm_num; linarith) (by norm_num; linarith),
    CLAMP_fin, CLAMP_fin, max_eq_left hx1, min_eq_left hx2, max_eq_left hy1, min_eq_left hy2]

theorem truncQ_intCast (n : ℤ) : truncQ (n : ℚ) = n := by
  unfold truncQ
  split_ifs <;> simp

theorem toInt_fin_int (n : ℤ) (h1 : INT_MIN ≤ n) (h2 : n ≤ INT_MAX) :
    F32.toInt (F32.fin (n : ℚ)) = .ok n := by
  simp only [F32.toInt, truncQ_intCast]
  rw [if_pos ⟨h1, h2⟩]

theorem starsDivisor_600 : starsDivisor 600 = .ok (-424) := by
  unfold starsDivisor
  rw [INIT_SCREEN_HEIGHT, STARS_HEIGHT, ofInt_small 600 (by norm_num), ofInt_small 1024 (by norm_num)]
  simp only
  rw [div_fin _ _ (by norm_num), ofRat_eq_fin _ 2 (by norm_num) (by norm_num), mul_fin,
    ofRat_eq_fin _ 2048 (by norm_num) (by norm_num), sub_fin,
    ofRat_eq_fin _ (-848) (by norm_num) (by norm_num)]
  have e : ((600 : ℤ) : ℚ) - ((1024 : ℤ) : ℚ) * (((600 : ℤ) : ℚ) / ((600 : ℤ) : ℚ)) = ((-424 : ℤ) : ℚ) := by
    norm_num
  rw [e, toInt_fin_int _ (by norm_num [INT_MIN]) (by norm_num [INT_MAX])]

theorem updateStars_600 (t : ℤ) (h0 : 0 ≤ t) (h1 : t < 424) :
    updateStars 600 t = .ok ((t + 1) % 424) := by
  unfold updateStars
  have hadd : cAdd t 1 = .ok (t + 1) := by
    unfold cAdd INT_MIN INT_MAX
    rw [if_pos (by constructor <;> omega)]
  have hc : cRem (t + 1) (-424) = .ok (Int.tmod (t + 1) (-424)) := by
    unfold cRem
    rw [if_neg (by norm_num : ¬ ((-424 : ℤ) = 0)), if_neg (by rintro ⟨-, h⟩; norm_num at h)]
  rw [hadd, starsDivisor_600]
  simp only [hc]
  rw [Int.tmod_neg, Int.tmod_eq_emod (by omega) (by norm_num)]

theorem updateBullets_zero (a : ℕ → bullet) (i : ℕ) : updateBullets a 0 i = .ok (a, 0) := by
  rw [updateBullets]
  simp

theorem update_600_no_bullets (s : State) (h0 : 0 ≤ s.stars_top) (h1 : s.stars_top < 424)
    (hn : s.n_bullets = 0) :
    update 600 s =
      .ok { stars_top := (s.stars_top + 1) % 424
            player_vel := s.player_vel
            player_pos := updatePlayer s.player_pos s.player_vel
            n_bullets := 0
            bullets := s.bullets } := by
  unfold update
  rw [updateStars_600 _ h0 h1, hn, updateBullets_zero]

theorem updatePlayer_up (m : ℤ) (h1 : -300 ≤ m) (h2 : m ≤ 549) :
    updatePlayer { x := F32.fin 0, y := F32.fin ((m : ℚ) / 2) } { x := F32.fin 0, y := F32.fin 5 } =
      { x := F32.fin 0, y := F32.fin (((min (m + 10) 549 : ℤ) : ℚ) / 2) } := by
  rw [updatePlayer_eq, add_fin, add_fin,
    ofRat_eq_fin (0 + 0) 0 (by norm_num) (by norm_num),
    ofRat_eq_fin ((m : ℚ) / 2 + 5) (m + 10) (by push_cast; ring) (by rw [abs_lt]; constructor <;> omega),
    CLAMP_fin, CLAMP_fin]
  have hm1 : (-300 : ℚ) ≤ m := by exact_mod_cast h1
  congr 2
  · norm_num
  · rw [max_eq_left (by linarith)]
    push_cast
    rw [← min_div_div_right (by norm_num : (0 : ℚ) ≤ 2)]
    congr 1
    ring

/-- With W held, `k` frames at window height 600 take the player from height
`m / 2` to `min (m + 10 k) 549 / 2`. -/
theorem run_up_frames (k : ℕ) (s : State) (m : ℤ) (h1 : -300 ≤ m) (h2 : m ≤ 549)
    (hv : s.player_vel = { x := F32.fin 0, y := F32.fin 5 })
    (hp : s.player_pos = { x := F32.fin 0, y := F32.fin ((m : ℚ) / 2) })
    (h0 : 0 ≤ s.stars_top) (h424 : s.stars_top < 424) (hn : s.n_bullets = 0) :
    ∃ s1, run s (List.replicate k frame600) = .ok s1 ∧
      s1.player_pos = { x := F32.fin 0, y := F32.fin (((min (m + 10 * k) 549 : ℤ) : ℚ) / 2) } ∧
      s1.player_vel = { x := F32.fin 0, y := F32.fin 5 } := by
  induction k generalizing s m with
  | zero =>
    refine ⟨s, rfl, ?_, hv⟩
    rw [hp]
    simp [min_eq_left h2]
  | succ k ih =>
    have hu := update_600_no_bullets s h0 h424 hn
    rw [hv, hp, updatePlayer_up m h1 h2] at hu
    obtain ⟨s1, hr, hpos, hvel⟩ := ih
      { stars_top := (s.stars_top + 1) % 424
        player_vel := { x := F32.fin 0, y := F32.fin 5 }
        player_pos := { x := F32.fin 0, y := F32.fin (((min (m + 10) 549 : ℤ) : ℚ) / 2) }
        n_bullets := 0
        bullets := s.bullets } (min (m + 10) 549) (by omega) (by omega) rfl rfl
      (show (0 : ℤ) ≤ (s.stars_top + 1) % 424 by omega)
      (show (s.stars_top + 1) % 424 < 424 by omega) rfl
    refine ⟨s1, ?_, ?_, hvel⟩
    · rw [List.replicate_succ, frame600, INIT_SCREEN_HEIGHT, run_frame_ok _ _ _ _ _ hu]
      exact hr
    · have e : min (min (m + 10) 549 + 10 * (k : ℤ)) 549 = min (m + 10 * ((k + 1 : ℕ) : ℤ)) 549 := by
        push_cast
        omega
      rw [hpos, e]

theorem hold_W (mem : ℕ → bullet) (k : ℕ) :
    ∃ s1, run (init mem) (Input.event (SDL_KEYDOWN SDL_SCANCODE_W) :: List.replicate k frame600)
        = .ok s1 ∧
      s1.player_pos = { x := F32.fin 0, y := F32.fin (min (-150 + 5 * (k : ℚ)) (549 / 2)) } := by
  have hk := keyDown_W (init mem)
  obtain ⟨s1, hr, hpos, -⟩ := run_up_frames k
    { init mem with player_vel := { (init mem).player_vel with y := F32.fin 5 } } (-300)
    (by norm_num) (by norm_num) (by simp [init_eq]) (by simp [init_eq]; norm_num)
    (by simp [init]) (by simp [init]) (by simp [init])
  refine ⟨s1, ?_, ?_⟩
  · rw [run_event_ok _ _ _ _ (by simp) (by simp only [handleEvent]; exact hk)]
    exact hr
  · rw [hpos]
    congr 2
    push_cast
    rw [← min_div_div_right (by norm_num : (0 : ℚ) ≤ 2)]
    congr 1
    ring

theorem ofRat_ne_of_far (q r : ℚ) (hq : (2 : ℚ) ^ (-126 : ℤ) ≤ |q|)
    (hfar : |q| * 2 ^ (-24 : ℤ) < |r - q|) : F32.fin r ≠ F32.ofRat q := by
  have hr := f32round_rel q hq
  unfold F32.ofRat
  simp only
  split_ifs
  · simp
  · simp
  · intro h
    injection h with h
    rw [← h] at hr
    exact absurd hfar (not_lt.mpr hr)

theorem posAfter_ok (s s1 : State) (inputs : List Input) (h : run s inputs = .ok s1) :
    posAfter s inputs = some s1.player_pos := by
  unfold posAfter
  rw [h]

theorem isBinary32_zero : (F32.fin 0).isBinary32 := by
  simp [F32.isBinary32, f32round]

theorem isBinary32_neg150 : (F32.fin (-150)).isBinary32 := by
  have := f32round_int (-150) (by norm_num)
  simpa [F32.isBinary32] using this

/-! ## Facts about the bullet loop -/

theorem survives_of_ok_false (b : bullet) (h : removalTest b = .ok false) : survives b = true := by
  simp [survives, h]

theorem survives_of_ok_true (b : bullet) (h : removalTest b = .ok true) : survives b = false := by
  simp [survives, h]

theorem removalTest_of_survives (b : bullet) (h : survives b = true) : removalTest b = .ok false := by
  unfold survives at h
  split at h
  · assumption
  · simp at h

theorem testDefined_iff (b : bullet) :
    testDefined b ↔ ∃ q : ℚ, b.pos.x = F32.fin q ∧ INT_MIN < truncQ q ∧ truncQ q ≤ INT_MAX := by
  unfold testDefined
  cases hx : b.pos.x with
  | fin q =>
    constructor
    · intro h; exact ⟨q, rfl, h⟩
    · rintro ⟨q1, h1, h2⟩
      injection h1 with h1
      rw [h1]; exact h2
  | pinf => simp
  | ninf => simp
  | nan => simp

theorem updateBullets_done (a : ℕ → bullet) (n i : ℕ) (h : ¬ i < n) :
    updateBullets a n i = .ok (a, n) := by
  rw [updateBullets, if_neg h]

theorem updateBullets_keep (a : ℕ → bullet) (n i : ℕ) (h : i < n)
    (ht : removalTest (advance (a i)) = .ok false) :
    updateBullets a n i = updateBullets (Function.update a i (advance (a i))) n (i + 1) := by
  rw [updateBullets, if_pos h]
  simp only [Function.update_same, ht]

theorem updateBullets_remove (a : ℕ → bullet) (n i : ℕ) (h : i < n)
    (ht : removalTest (advance (a i)) = .ok true) :
    updateBullets a n i =
      updateBullets (Function.update (Function.update a i (advance (a i))) i
        (Function.update a i (advance (a i)) (n - 1))) (n - 1) i := by
  rw [updateBullets, if_pos h]
  simp only [Function.update_same, ht]

/-- The loop from cursor `i`: it returns, the slots below `i` are untouched, and
the slots from `i` on hold, in some order, the advanced projectiles of
`[i, n)` that pass the test. -/
theorem updateBullets_spec (d : ℕ) : ∀ (a : ℕ → bullet) (n i : ℕ), n - i = d → i ≤ n →
    (∀ j, i ≤ j → j < n → ∃ t, removalTest (advance (a j)) = .ok t) →
    ∃ a1 n1, updateBullets a n i = .ok (a1, n1) ∧ i ≤ n1 ∧ n1 ≤ n ∧ (∀ j, j < i → a1 j = a j) ∧
      List.Perm ((List.range' i (n1 - i)).map a1)
        (((List.range' i (n - i)).map (fun j => advance (a j))).filter survives) := by
  induction d with
  | zero =>
    intro a n i hd hi _
    have hn : n = i := by omega
    subst hn
    refine ⟨a, n, updateBullets_done a n n (lt_irrefl n), le_refl _, le_refl _, fun _ _ => rfl, ?_⟩
    simp
  | succ d ih =>
    intro a n i hd hi hsafe
    have hlt : i < n := by omega
    obtain ⟨t, ht⟩ := hsafe i (le_refl _) hlt
    have hsplit : List.range' i (n - i) = i :: List.range' (i + 1) (n - (i + 1)) := by
      rw [show n - i = (n - (i + 1)) + 1 by omega, List.range'_succ]
    cases t with
    | false =>
      have hs1 : ∀ j, i + 1 ≤ j → j < n →
          ∃ t, removalTest (advance (Function.update a i (advance (a i)) j)) = .ok t := by
        intro j hj1 hj2
        rw [Function.update_noteq (by omega)]
        exact hsafe j (by omega) hj2
      obtain ⟨a1, n1, hrun, h1, h2, h3, hperm⟩ :=
        ih (Function.update a i (advance (a i))) n (i + 1) (by omega) (by omega) hs1
      refine ⟨a1, n1, ?_, by omega, h2, ?_, ?_⟩
      · rw [updateBullets_keep a n i hlt ht]; exact hrun
      · intro j hj
        rw [h3 j (by omega), Function.update_noteq (by omega)]
      · have hsplit1 : List.range' i (n1 - i) = i :: List.range' (i + 1) (n1 - (i + 1)) := by
          rw [show n1 - i = (n1 - (i + 1)) + 1 by omega, List.range'_succ]
        have hai : a1 i = advance (a i) := by
          rw [h3 i (by omega), Function.update_same]
        rw [hsplit1, hsplit, List.map_cons, List.map_cons, hai,
          List.filter_cons_of_pos (survives_of_ok_false _ ht)]
        apply List.Perm.cons
        have hc : (List.range' (i + 1) (n - (i + 1))).map
              (fun j => advance (Function.update a i (advance (a i)) j)) =
            (List.range' (i + 1) (n - (i + 1))).map (fun j => advance (a j)) := by
          apply List.map_congr_left
          intro j hj
          rw [List.mem_range'_1] at hj
          rw [Function.update_noteq (by omega)]
        rw [← hc]
        exact hperm
    | true =>
      have hrem := updateBullets_remove a n i hlt ht
      by_cases hlast : i = n - 1
      · have hdone : updateBullets
            (Function.update (Function.update a i (advance (a i))) i
              (Function.update a i (advance (a i)) (n - 1))) (n - 1) i =
            .ok (Function.update (Function.update a i (advance (a i))) i
              (Function.update a i (advance (a i)) (n - 1)), n - 1) :=
          updateBullets_done _ _ _ (by omega)
        refine ⟨_, n - 1, by rw [hrem, hdone], by omega, by omega, ?_, ?_⟩
        · intro j hj
          rw [Function.update_noteq (by omega), Function.update_noteq (by omega)]
        · rw [hsplit, show n - 1 - i = 0 by omega, show n - (i + 1) = 0 by omega]
          simp [survives_of_ok_true _ ht]
      · have hin : i < n - 1 := by omega
        have ea2 : ∀ j, j ≠ i →
            Function.update (Function.update a i (advance (a i))) i
              (Function.update a i (advance (a i)) (n - 1)) j = a j := by
          intro j hj
          rw [Function.update_noteq hj, Function.update_noteq hj]
        have ea2i : Function.update (Function.update a i (advance (a i))) i
              (Function.update a i (advance (a i)) (n - 1)) i = a (n - 1) := by
          rw [Function.update_same, Function.update_noteq (by omega)]
        have hs2 : ∀ j, i ≤ j → j < n - 1 →
            ∃ t, removalTest (advance (Function.update (Function.update a i (advance (a i))) i
              (Function.update a i (advance (a i)) (n - 1)) j)) = .ok t := by
          intro j hj1 hj2
          by_cases hji : j = i
          · rw [hji, ea2i]; exact hsafe (n - 1) (by omega) (by omega)
          · rw [ea2 j hji]; exact hsafe j hj1 (by omega)
        obtain ⟨a1, n1, hrun, h1, h2, h3, hperm⟩ := ih _ (n - 1) i (by omega) (by omega) hs2
        refine ⟨a1, n1, by rw [hrem, hrun], h1, by omega, ?_, ?_⟩
        · intro j hj
          rw [h3 j hj, ea2 j (by omega)]
        · refine hperm.trans ?_
          rw [hsplit, List.map_cons, List.filter_cons_of_neg (by simp [survives_of_ok_true _ ht])]
          apply List.Perm.filter
          have hl : List.range' i (n - 1 - i) = i :: List.range' (i + 1) (n - 1 - (i + 1)) := by
            rw [show n - 1 - i = (n - 1 - (i + 1)) + 1 by omega, List.range'_succ]
          have hr : List.range' (i + 1) (n - (i + 1)) =
              List.range' (i + 1) (n - 1 - (i + 1)) ++ [n - 1] := by
            rw [show n - (i + 1) = (n - 1 - (i + 1)) + 1 by omega, List.range'_concat]
            congr 2
            omega
          rw [hl, hr, List.map_cons, List.map_append, List.map_singleton, ea2i]
          have hc : (List.range' (i + 1) (n - 1 - (i + 1))).map
                (fun j => advance (Function.update (Function.update a i (advance (a i))) i
                  (Function.update a i (advance (a i)) (n - 1)) j)) =
              (List.range' (i + 1) (n - 1 - (i + 1))).map (fun j => advance (a j)) := by
            apply List.map_congr_left
            intro j hj
            rw [List.mem_range'_1] at hj
            rw [ea2 j (by omega)]
          rw [hc]
          exact (List.perm_append_singleton _ _).symm

theorem removalTest_of_defined (b : bullet) (q : ℚ) (hx : b.pos.x = F32.fin q)
    (h1 : INT_MIN < truncQ q) (h2 : truncQ q ≤ INT_MAX) :
    removalTest b = .ok (decide (200 < |truncQ q|)) := by
  unfold removalTest
  rw [hx]
  simp only [F32.toInt]
  rw [if_pos ⟨h1.le, h2⟩]
  simp only [cAbs]
  rw [if_neg (ne_of_gt h1)]
  simp only [INIT_GAME_WIDTH, INIT_SCREEN_HEIGHT, show Int.tdiv 400 2 = 200 by decide,
    show Int.tdiv 600 2 = 300 by decide]
  congr 1
  by_cases h : 200 < |truncQ q|
  · simp [h]
  · have h3 : ¬ 300 < |truncQ q| := by omega
    simp [h, h3]

theorem testDefined_of_ok (b : bullet) (t : Bool) (h : removalTest b = .ok t) :
    ∃ q : ℚ, b.pos.x = F32.fin q ∧ INT_MIN < truncQ q ∧ truncQ q ≤ INT_MAX ∧
      t = decide (200 < |truncQ q|) := by
  unfold removalTest at h
  cases hx : b.pos.x with
  | fin q =>
    rw [hx] at h
    simp only [F32.toInt] at h
    by_cases hr : INT_MIN ≤ truncQ q ∧ truncQ q ≤ INT_MAX
    · rw [if_pos hr] at h
      simp only [cAbs] at h
      by_cases hm : truncQ q = INT_MIN
      · rw [if_pos hm] at h
        simp at h
      · have h1 : INT_MIN < truncQ q := lt_of_le_of_ne hr.1 (Ne.symm hm)
        have h3 := removalTest_of_defined b q hx h1 hr.2
        unfold removalTest at h3
        rw [hx] at h3
        simp only [F32.toInt] at h3
        rw [if_pos hr] at h3
        simp only [cAbs] at h3
        rw [h3] at h
        simp only [Except.ok.injEq] at h
        exact ⟨q, rfl, h1, hr.2, h.symm⟩
    · rw [if_neg hr] at h
      simp at h
  | pinf => rw [hx] at h; simp [F32.toInt] at h
  | ninf => rw [hx] at h; simp [F32.toInt] at h
  | nan => rw [hx] at h; simp [F32.toInt] at h

theorem live_zero_eq (a : ℕ → bullet) (n : ℕ) : (List.range' 0 (n - 0)).map a = live a n := by
  rw [live, List.range_eq_range', Nat.sub_zero]

theorem mem_live (a : ℕ → bullet) (n j : ℕ) (h : j < n) : a j ∈ live a n := by
  unfold live
  exact List.mem_map.mpr ⟨j, List.mem_range.mpr h, rfl⟩

theorem length_live (a : ℕ → bullet) (n : ℕ) : (live a n).length = n := by
  simp [live]

/-- The whole pass: it returns, and the live collection afterwards is a
permutation of the advanced input projectiles that pass the test. -/
theorem updateBullets_perm (a : ℕ → bullet) (n : ℕ)
    (hsafe : ∀ j, j < n → testDefined (advance (a j))) :
    ∃ a1 n1, updateBullets a n 0 = .ok (a1, n1) ∧ n1 ≤ n ∧
      List.Perm (live a1 n1) (((live a n).map advance).filter survives) := by
  have hs : ∀ j, 0 ≤ j → j < n → ∃ t, removalTest (advance (a j)) = .ok t := by
    intro j _ hj
    obtain ⟨q, hx, h1, h2⟩ := (testDefined_iff _).mp (hsafe j hj)
    exact ⟨_, removalTest_of_defined _ q hx h1 h2⟩
  obtain ⟨a1, n1, hrun, -, hle, -, hperm⟩ := updateBullets_spec (n - 0) a n 0 rfl (Nat.zero_le _) hs
  refine ⟨a1, n1, hrun, hle, ?_⟩
  rw [live_zero_eq] at hperm
  have e : (List.range' 0 (n - 0)).map (fun j => advance (a j)) = (live a n).map advance := by
    rw [← live_zero_eq, List.map_map]
    rfl
  rw [e] at hperm
  exact hperm

theorem abs_truncQ_le_iff (q : ℚ) : |truncQ q| ≤ 200 ↔ -201 < q ∧ q < 201 := by
  unfold truncQ
  split_ifs with h0
  · have hf : (0 : ℤ) ≤ ⌊q⌋ := Int.floor_nonneg.mpr h0
    rw [abs_of_nonneg hf]
    constructor
    · intro h
      have h1 : ⌊q⌋ < 201 := by omega
      rw [Int.floor_lt] at h1
      exact ⟨by linarith, by exact_mod_cast h1⟩
    · rintro ⟨-, h2⟩
      have h1 : ⌊q⌋ < 201 := by rw [Int.floor_lt]; exact_mod_cast h2
      omega
  · have hq : q < 0 := not_le.mp h0
    have hc : ⌈q⌉ ≤ 0 := by rw [Int.ceil_le]; exact_mod_cast hq.le
    rw [abs_of_nonpos hc]
    constructor
    · intro h
      have h1 : -201 < ⌈q⌉ := by omega
      rw [Int.lt_ceil] at h1
      exact ⟨by exact_mod_cast h1, by linarith⟩
    · rintro ⟨h1, -⟩
      have h2 : -201 < ⌈q⌉ := by rw [Int.lt_ceil]; exact_mod_cast h1
      omega

theorem truncQ_int_range (q : ℚ) (h1 : -2 ^ 31 < q) (h2 : q < 2 ^ 31) :
    INT_MIN < truncQ q ∧ truncQ q ≤ INT_MAX := by
  unfold truncQ INT_MIN INT_MAX
  split_ifs with h0
  · have hf : (0 : ℤ) ≤ ⌊q⌋ := Int.floor_nonneg.mpr h0
    have h3 : ⌊q⌋ < 2 ^ 31 := by
      rw [Int.floor_lt]; exact_mod_cast h2
    constructor <;> omega
  · have hq : q < 0 := not_le.mp h0
    have hc : ⌈q⌉ ≤ 0 := by rw [Int.ceil_le]; exact_mod_cast hq.le
    have h3 : -2 ^ 31 < ⌈q⌉ := by
      rw [Int.lt_ceil]; exact_mod_cast h1
    constructor <;> omega

/-- Where the removal test is defined, a projectile passes it exactly when its
`x` lies strictly between `-201` and `201`. -/
theorem survives_eq (b : bullet) (q : ℚ) (hx : b.pos.x = F32.fin q) (h1 : -2 ^ 31 < q)
    (h2 : q < 2 ^ 31) : survives b = decide (-201 < q ∧ q < 201) := by
  obtain ⟨r1, r2⟩ := truncQ_int_range q h1 h2
  have ht := removalTest_of_defined b q hx r1 r2
  by_cases hk : -201 < q ∧ q < 201
  · have ha := (abs_truncQ_le_iff q).mpr hk
    rw [show decide (200 < |truncQ q|) = false from decide_eq_false (by omega)] at ht
    rw [survives_of_ok_false b ht, decide_eq_true hk]
  · have ha : ¬ |truncQ q| ≤ 200 := fun h => hk ((abs_truncQ_le_iff q).mp h)
    rw [show decide (200 < |truncQ q|) = true from decide_eq_true (by omega)] at ht
    rw [survives_of_ok_true b ht, decide_eq_false hk]

theorem demoMem_step_x (j : ℕ) :
    F32.add (demoMem j).pos.x (demoMem j).vel.x =
      F32.fin (if j = 0 then 201 else if j = 1 then 401 / 2 else if j = 2 then -401 / 2 else -201) := by
  unfold demoMem
  split_ifs
  · simp only [demoBullet, add_fin]
    rw [ofRat_eq_fin _ 402 (by norm_num) (by norm_num)]; norm_num
  · simp only [demoBullet, add_fin]
    rw [ofRat_eq_fin _ 401 (by norm_num) (by norm_num)]; norm_num
  · simp only [demoBullet, add_fin]
    rw [ofRat_eq_fin _ (-401) (by norm_num) (by norm_num)]; norm_num
  · simp only [demoBullet, add_fin]
    rw [ofRat_eq_fin _ (-402) (by norm_num) (by norm_num)]; norm_num

theorem demoMem_step_y (j : ℕ) :
    F32.add (demoMem j).pos.y (demoMem j).vel.y = F32.fin 5 := by
  have h : F32.add (F32.fin 0) (F32.fin 5) = F32.fin 5 := by
    rw [add_fin, ofRat_eq_fin _ 10 (by norm_num) (by norm_num)]; norm_num
  unfold demoMem
  split_ifs <;> exact h

theorem demoMem_defined (j : ℕ) :
    ∃ q : ℚ, F32.add (demoMem j).pos.x (demoMem j).vel.x = F32.fin q ∧ -2 ^ 31 < q ∧ q < 2 ^ 31 := by
  refine ⟨_, demoMem_step_x j, ?_, ?_⟩ <;> split_ifs <;> norm_num

/-! ## What holds in every reachable state -/

theorem abs_truncQ_half (m : ℤ) (h : |m| ≤ 375) : |truncQ ((m : ℚ) / 2)| ≤ 187 := by
  have hm := abs_le.mp h
  have h1 : (-375 : ℚ) ≤ m := by exact_mod_cast hm.1
  have h2 : (m : ℚ) ≤ 375 := by exact_mod_cast hm.2
  unfold truncQ
  rw [abs_le]
  split_ifs with h0
  · constructor
    · have : (0 : ℤ) ≤ ⌊(m : ℚ) / 2⌋ := Int.floor_nonneg.mpr h0
      omega
    · have : ⌊(m : ℚ) / 2⌋ < 188 := by
        rw [Int.floor_lt]; push_cast; linarith
      omega
  · constructor
    · have : -188 < ⌈(m : ℚ) / 2⌉ := by
        rw [Int.lt_ceil]; push_cast; linarith
      omega
    · have : ⌈(m : ℚ) / 2⌉ ≤ 0 := by
        rw [Int.ceil_le]; push_cast; linarith
      omega

theorem removalTest_half (b : bullet) (m : ℤ) (hx : b.pos.x = F32.fin ((m : ℚ) / 2))
    (h : |m| ≤ 375) : removalTest b = .ok false := by
  have ht := abs_le.mp (abs_truncQ_half m h)
  rw [removalTest_of_defined b _ hx (by unfold INT_MIN; omega) (by unfold INT_MAX; omega)]
  congr 1
  have := abs_truncQ_half m h
  simp only [decide_eq_false_iff_not, not_lt]
  omega

theorem advance_half (b : bullet) (m : ℤ) (hv : b.vel.x = F32.fin 0)
    (hx : b.pos.x = F32.fin ((m : ℚ) / 2)) (h : |m| ≤ 375) :
    (advance b).vel.x = F32.fin 0 ∧ (advance b).pos.x = F32.fin ((m : ℚ) / 2) := by
  refine ⟨hv, ?_⟩
  simp only [advance, hv, hx, add_fin, add_zero]
  exact ofRat_half m (by rw [abs_lt]; have := abs_le.mp h; constructor <;> omega)

/-- In a state satisfying `Reach` the bullet loop returns, removes nothing, and
its result satisfies the projectile part of `Reach`. -/
theorem updateBullets_reach (s : State) (hr : Reach s) :
    ∃ a1, updateBullets s.bullets s.n_bullets 0 = .ok (a1, s.n_bullets) ∧
      ∀ j, j < s.n_bullets →
        (a1 j).vel.x = F32.fin 0 ∧ ∃ m : ℤ, (a1 j).pos.x = F32.fin ((m : ℚ) / 2) ∧ |m| ≤ 375 := by
  obtain ⟨-, -, -, hb⟩ := hr
  have hadv : ∀ j, j < s.n_bullets →
      (advance (s.bullets j)).vel.x = F32.fin 0 ∧
        ∃ m : ℤ, (advance (s.bullets j)).pos.x = F32.fin ((m : ℚ) / 2) ∧ |m| ≤ 375 := by
    intro j hj
    obtain ⟨hv, m, hx, hm⟩ := hb j hj
    obtain ⟨h1, h2⟩ := advance_half _ m hv hx hm
    exact ⟨h1, m, h2, hm⟩
  have hdef : ∀ j, j < s.n_bullets → testDefined (advance (s.bullets j)) := by
    intro j hj
    obtain ⟨-, m, hx, hm⟩ := hadv j hj
    have ht := abs_le.mp (abs_truncQ_half m hm)
    exact (testDefined_iff _).mpr ⟨_, hx, by unfold INT_MIN; omega, by unfold INT_MAX; omega⟩
  obtain ⟨a1, n1, hrun, -, hperm⟩ := updateBullets_perm s.bullets s.n_bullets hdef
  have hall : ((live s.bullets s.n_bullets).map advance).filter survives =
      (live s.bullets s.n_bullets).map advance := by
    rw [List.filter_eq_self]
    intro b hb1
    obtain ⟨b0, hb0, rfl⟩ := List.mem_map.mp hb1
    unfold live at hb0
    obtain ⟨j, hj, rfl⟩ := List.mem_map.mp hb0
    rw [List.mem_range] at hj
    obtain ⟨-, m, hx, hm⟩ := hadv j hj
    exact survives_of_ok_false _ (removalTest_half _ m hx hm)
  rw [hall] at hperm
  have hn : n1 = s.n_bullets := by
    have := hperm.length_eq
    rw [length_live, List.length_map, length_live] at this
    exact this
  subst hn
  refine ⟨a1, hrun, ?_⟩
  intro j hj
  have hm : a1 j ∈ (live s.bullets s.n_bullets).map advance := hperm.subset (mem_live a1 _ j hj)
  obtain ⟨b0, hb0, hb1⟩ := List.mem_map.mp hm
  unfold live at hb0
  obtain ⟨i, hi, rfl⟩ := List.mem_map.mp hb0
  rw [List.mem_range] at hi
  rw [← hb1]
  exact hadv i hi

theorem updatePlayer_x_half (pos vel : vec2) (m v : ℤ) (hx : pos.x = F32.fin ((m : ℚ) / 2))
    (hm : |m| ≤ 375) (hv : vel.x = F32.fin v) (hv5 : v = -5 ∨ v = 0 ∨ v = 5) :
    ∃ m1 : ℤ, (updatePlayer pos vel).x = F32.fin ((m1 : ℚ) / 2) ∧ |m1| ≤ 375 := by
  have hm2 := abs_le.mp hm
  refine ⟨min (max (m + 2 * v) (-375)) 375, ?_, ?_⟩
  · rw [updatePlayer_eq, hx, hv, add_fin,
      ofRat_eq_fin ((m : ℚ) / 2 + v) (m + 2 * v) (by push_cast; ring)
        (by rw [abs_lt]; constructor <;> omega), CLAMP_fin]
    push_cast
    rw [← min_div_div_right (by norm_num : (0 : ℚ) ≤ 2), ← max_div_div_right (by norm_num : (0 : ℚ) ≤ 2)]
    congr 3
    ring
  · rw [abs_le]
    constructor <;> omega

theorem reach_init (mem : ℕ → bullet) : Reach (init mem) := by
  rw [init_eq]
  refine ⟨⟨0, by norm_num, by norm_num⟩, ⟨0, by norm_num, by norm_num⟩, Nat.zero_le _, ?_⟩
  intro j hj
  exact absurd hj (Nat.not_lt_zero _)

theorem reach_handleEvent (s : State) (e : SDL_Event) (s1 : State) (hr : Reach s)
    (h : handleEvent s e = .ok s1) : Reach s1 := by
  obtain ⟨hv, hp, hc, hb⟩ := hr
  cases e with
  | SDL_QUIT => simp only [handleEvent, Except.ok.injEq] at h; rw [← h]; exact ⟨hv, hp, hc, hb⟩
  | SDL_OTHER => simp only [handleEvent, Except.ok.injEq] at h; rw [← h]; exact ⟨hv, hp, hc, hb⟩
  | SDL_KEYUP k =>
    simp only [handleEvent, Except.ok.injEq] at h
    rw [← h]
    unfold keyUp
    split_ifs
    · exact ⟨⟨0, by rw [ofInt_zero]; norm_num, by norm_num⟩, hp, hc, hb⟩
    · exact ⟨⟨0, by rw [ofInt_zero]; norm_num, by norm_num⟩, hp, hc, hb⟩
    · exact ⟨hv, hp, hc, hb⟩
    · exact ⟨hv, hp, hc, hb⟩
    · exact ⟨hv, hp, hc, hb⟩
  | SDL_KEYDOWN k =>
    simp only [handleEvent] at h
    cases k with
    | SDL_SCANCODE_D =>
      rw [keyDown_D] at h; simp only [Except.ok.injEq] at h; rw [← h]
      exact ⟨⟨5, by norm_num, by norm_num⟩, hp, hc, hb⟩
    | SDL_SCANCODE_A =>
      rw [keyDown_A] at h; simp only [Except.ok.injEq] at h; rw [← h]
      exact ⟨⟨-5, by norm_num, by norm_num⟩, hp, hc, hb⟩
    | SDL_SCANCODE_W =>
      rw [keyDown_W] at h; simp only [Except.ok.injEq] at h; rw [← h]
      exact ⟨hv, hp, hc, hb⟩
    | SDL_SCANCODE_S =>
      rw [keyDown_S] at h; simp only [Except.ok.injEq] at h; rw [← h]
      exact ⟨hv, hp, hc, hb⟩
    | SDL_SCANCODE_UNKNOWN =>
      simp only [keyDown, Except.ok.injEq] at h; rw [← h]
      exact ⟨hv, hp, hc, hb⟩
    | SDL_SCANCODE_SPACE =>
      by_cases hlt : s.n_bullets < MAX_BULLETS
      · rw [keyDown_SPACE s hlt] at h
        simp only [Except.ok.injEq] at h
        rw [← h]
        refine ⟨hv, hp, hlt, ?_⟩
        intro j hj
        simp only at hj ⊢
        by_cases hjn : j = s.n_bullets
        · rw [hjn, Function.update_same]
          exact ⟨rfl, hp⟩
        · rw [Function.update_noteq hjn]
          exact hb j (by omega)
      · rw [keyDown_SPACE_full s (Nat.not_lt.mp hlt)] at h
        simp at h

theorem reach_update (s : State) (h : ℤ) (s1 : State) (hr : Reach s)
    (hu : update h s = .ok s1) : Reach s1 ∧ s1.n_bullets = s.n_bullets := by
  obtain ⟨a1, hrun, hb1⟩ := updateBullets_reach s hr
  obtain ⟨⟨v, hv, hv5⟩, ⟨m, hx, hm⟩, hc, -⟩ := hr
  unfold update at hu
  rw [hrun] at hu
  split at hu
  · simp at hu
  · simp only [Except.ok.injEq] at hu
    rw [← hu]
    exact ⟨⟨⟨v, hv, hv5⟩, updatePlayer_x_half _ _ m v hx hm hv hv5, hc, hb1⟩, rfl⟩

theorem reach_run (mem : ℕ → bullet) (inputs : List Input) (s : State)
    (h : run (init mem) inputs = .ok s) : Reach s :=
  run_invariant Reach (fun s e s1 hr hh => reach_handleEvent s e s1 hr hh)
    (fun s ht s1 hr hh => (reach_update s ht s1 hr hh).1) inputs (init mem) s (reach_init mem) h

theorem handleEvent_n_bullets (s s1 : State) (e : SDL_Event) (h : handleEvent s e = .ok s1) :
    s.n_bullets ≤ s1.n_bullets := by
  cases e with
  | SDL_QUIT => simp only [handleEvent, Except.ok.injEq] at h; rw [← h]
  | SDL_OTHER => simp only [handleEvent, Except.ok.injEq] at h; rw [← h]
  | SDL_KEYUP k =>
    simp only [handleEvent, Except.ok.injEq] at h
    rw [← h]
    unfold keyUp
    split_ifs <;> exact le_refl _
  | SDL_KEYDOWN k =>
    simp only [handleEvent] at h
    cases k <;> simp only [keyDown] at h
    case SDL_SCANCODE_SPACE =>
      split_ifs at h
      simp only [Except.ok.injEq] at h
      rw [← h]
      exact Nat.le_succ _
    all_goals
      simp only [Except.ok.injEq] at h
      rw [← h]

theorem step_n_bullets (s s1 : State) (inp : Input) (hr : Reach s) (h : run s [inp] = .ok s1) :
    s.n_bullets ≤ s1.n_bullets := by
  cases inp with
  | event e =>
    by_cases hq : e = SDL_QUIT
    · subst hq
      simp only [run, Except.ok.injEq] at h
      rw [← h]
    · cases hh : handleEvent s e with
      | error f => rw [run_event_error s f e [] hh] at h; simp at h
      | ok s2 =>
        rw [run_event_ok s s2 e [] hq hh, run_nil] at h
        simp only [Except.ok.injEq] at h
        rw [← h]
        exact handleEvent_n_bullets s s2 e hh
  | frame w ht =>
    cases hh : update ht s with
    | error f => simp [run, hh] at h
    | ok s2 =>
      rw [run_frame_ok s s2 w ht [] hh, run_nil] at h
      simp only [Except.ok.injEq] at h
      rw [← h, (reach_update s ht s2 hr hh).2]

theorem update_ok (s : State) (h t : ℤ) (hs : updateStars h s.stars_top = .ok t) (hr : Reach s) :
    ∃ s1, update h s = .ok s1 ∧ s1.stars_top = t ∧ s1.n_bullets = s.n_bullets ∧ Reach s1 := by
  obtain ⟨a1, hrun, -⟩ := updateBullets_reach s hr
  have hu : update h s = .ok
      { stars_top := t
        player_vel := s.player_vel
        player_pos := updatePlayer s.player_pos s.player_vel
        n_bullets := s.n_bullets
        bullets := a1 } := by
    unfold update
    rw [hs, hrun]
  exact ⟨_, hu, rfl, rfl, (reach_update s h _ hr hu).1⟩

theorem fire_frame_run :
    ∃ s, run (init zeroMem) [fire, frame600, frame600] = .ok s ∧ s.n_bullets = 1 := by
  have h1 := keyDown_SPACE (init zeroMem) (by simp [init, MAX_BULLETS])
  have hr1 := reach_handleEvent _ (SDL_KEYDOWN SDL_SCANCODE_SPACE) _ (reach_init zeroMem)
    (by simp only [handleEvent]; exact h1)
  obtain ⟨s2, hu2, hst2, hn2, hr2⟩ := update_ok _ 600 _
    (updateStars_600 0 (by norm_num) (by norm_num)) hr1
  obtain ⟨s3, hu3, -, hn3, -⟩ := update_ok s2 600 _
    (updateStars_600 s2.stars_top (by rw [hst2]; norm_num) (by rw [hst2]; norm_num)) hr2
  refine ⟨s3, ?_, by rw [hn3, hn2]; rfl⟩
  rw [fire, run_event_ok _ _ _ _ (by simp) (by simp only [handleEvent]; exact h1), frame600,
    INIT_SCREEN_HEIGHT, run_frame_ok _ _ _ _ _ hu2, run_frame_ok _ _ _ _ _ hu3, run_nil]

/-! ## Facts about the star scroll -/

theorem ofRat_rel_pos (q : ℚ) (h1 : 1 / 1000 ≤ q) (h2 : q ≤ 2 ^ 100) :
    ∃ r : ℚ, F32.ofRat q = F32.fin r ∧ q * (999 / 1000) ≤ r ∧ r ≤ q * (1001 / 1000) := by
  have hq : 0 < q := by linarith
  have hrel := f32round_rel q (by rw [abs_of_pos hq]; refine le_trans ?_ h1; norm_num)
  have he : (2 : ℚ) ^ (-24 : ℤ) = 1 / 16777216 := by norm_num
  rw [abs_of_pos hq, abs_le, he] at hrel
  obtain ⟨ha, hb⟩ := hrel
  have hlo : q * (999 / 1000) ≤ f32round q := by linarith
  have hhi : f32round q ≤ q * (1001 / 1000) := by linarith
  refine ⟨f32round q, ?_, hlo, hhi⟩
  unfold F32.ofRat
  simp only
  have hbig : f32round q < 2 ^ 128 := by
    have : q * (1001 / 1000) ≤ 2 ^ 100 * (1001 / 1000) := mul_le_mul_of_nonneg_right h2 (by norm_num)
    have h3 : (2 : ℚ) ^ 100 * (1001 / 1000) < 2 ^ 128 := by norm_num
    linarith
  have hpos : 0 < f32round q := by nlinarith
  rw [if_neg (not_le.mpr hbig), if_neg (by
    rw [not_le]
    have : -(2 : ℚ) ^ 128 < 0 := by norm_num
    linarith)]

theorem ofRat_rel_neg (q : ℚ) (h1 : q ≤ -(1 / 1000)) (h2 : -(2 ^ 100) ≤ q) :
    ∃ r : ℚ, F32.ofRat q = F32.fin r ∧ q * (1001 / 1000) ≤ r ∧ r ≤ q * (999 / 1000) := by
  have hq : q < 0 := by linarith
  have hrel := f32round_rel q (by rw [abs_of_neg hq]; refine le_trans ?_ (by linarith : 1 / 1000 ≤ -q); norm_num)
  have he : (2 : ℚ) ^ (-24 : ℤ) = 1 / 16777216 := by norm_num
  rw [abs_of_neg hq, abs_le, he] at hrel
  obtain ⟨ha, hb⟩ := hrel
  have hlo : q * (1001 / 1000) ≤ f32round q := by linarith
  have hhi : f32round q ≤ q * (999 / 1000) := by linarith
  refine ⟨f32round q, ?_, hlo, hhi⟩
  unfold F32.ofRat
  simp only
  have hneg : f32round q < 0 := by nlinarith
  have hbig : -(2 : ℚ) ^ 128 < f32round q := by
    have : -(2 ^ 100) * (1001 / 1000) ≤ q * (1001 / 1000) :=
      mul_le_mul_of_nonneg_right h2 (by norm_num)
    have h3 : -(2 : ℚ) ^ 128 < -(2 ^ 100) * (1001 / 1000) := by norm_num
    linarith
  rw [if_neg (by rw [not_le]; have : (0 : ℚ) < 2 ^ 128 := by norm_num
                 linarith), if_neg (not_le.mpr hbig)]

theorem ofRat_zero : F32.ofRat 0 = F32.fin 0 :=
  ofRat_eq_fin 0 0 (by norm_num) (by norm_num)

/-- The `float` that `starsDivisor` converts to `int`, for a window height from
1 to `INT_MAX`: it lies between `-0.72 h` and `-0.70 h`. -/
theorem starsDivisor_float (h : ℤ) (h1 : 1 ≤ h) (h2 : h < 2 ^ 31) :
    ∃ D : ℚ, starsDivisor h = F32.toInt (F32.fin D) ∧
      -(72 / 100) * (h : ℚ) ≤ D ∧ D ≤ -(70 / 100) * (h : ℚ) := by
  have hq1 : (1 : ℚ) ≤ h := by exact_mod_cast h1
  have hq2 : (h : ℚ) < 2 ^ 31 := by exact_mod_cast h2
  obtain ⟨H, hH, hHlo, hHhi⟩ := ofRat_rel_pos (h : ℚ) (by linarith)
    (by have : (2 : ℚ) ^ 31 ≤ 2 ^ 100 := by norm_num
        linarith)
  have hHub : H ≤ 2 ^ 32 := by
    have : (2 : ℚ) ^ 31 * (1001 / 1000) ≤ 2 ^ 32 := by norm_num
    nlinarith
  obtain ⟨S, hS, hSlo, hShi⟩ := ofRat_rel_pos (H / 600) (by linarith)
    (by have : (2 : ℚ) ^ 32 / 600 ≤ 2 ^ 100 := by norm_num
        linarith)
  obtain ⟨T, hT, hTlo, hThi⟩ := ofRat_rel_pos (1024 * S) (by linarith)
    (by have : (2 : ℚ) ^ 32 * 2 ≤ 2 ^ 100 / 1024 := by norm_num
        linarith)
  obtain ⟨D, hD, hDlo, hDhi⟩ := ofRat_rel_neg (H - T) (by linarith)
    (by have : (2 : ℚ) ^ 32 * 2 ≤ 2 ^ 100 := by norm_num
        linarith)
  refine ⟨D, ?_, by linarith, by linarith⟩
  unfold starsDivisor
  simp only [INIT_SCREEN_HEIGHT, STARS_HEIGHT]
  rw [ofInt_small 600 (by norm_num), ofInt_small 1024 (by norm_num), F32.ofInt, hH,
    div_fin _ _ (by norm_num)]
  push_cast
  rw [hS, mul_fin, hT, sub_fin, hD]

theorem starsDivisor_zero : starsDivisor 0 = .ok 0 := by
  unfold starsDivisor
  simp only [INIT_SCREEN_HEIGHT, STARS_HEIGHT]
  rw [ofInt_small 600 (by norm_num), ofInt_small 1024 (by norm_num), ofInt_zero,
    div_fin _ _ (by norm_num)]
  simp only [zero_div]
  rw [ofRat_zero, mul_fin, mul_zero, ofRat_zero, sub_fin, sub_zero, ofRat_zero]
  exact toInt_fin_int 0 (by norm_num [INT_MIN]) (by norm_num [INT_MAX])

theorem starsDivisor_one : starsDivisor 1 = .ok 0 := by
  obtain ⟨D, hD, hlo, hhi⟩ := starsDivisor_float 1 (by norm_num) (by norm_num)
  have hneg : ¬ (0 : ℚ) ≤ D := by push_cast at hhi; linarith
  have hc : ⌈D⌉ = 0 := by
    rw [Int.ceil_eq_iff]
    push_cast at hlo hhi ⊢
    constructor <;> linarith
  rw [hD]
  simp only [F32.toInt, truncQ, if_neg hneg, hc]
  rw [if_pos (by norm_num [INT_MIN, INT_MAX])]

/-- For a window height from 2 to `INT_MAX` the divisor is a negative `int`
between `-0.72 h - 1` and `-0.70 h + 1`. -/
theorem starsDivisor_tall (h : ℤ) (h1 : 2 ≤ h) (h2 : h < 2 ^ 31) :
    ∃ d : ℤ, starsDivisor h = .ok d ∧ d ≤ -1 ∧ -(72 / 100) * (h : ℚ) ≤ d := by
  obtain ⟨D, hD, hlo, hhi⟩ := starsDivisor_float h (by omega) h2
  have hq1 : (2 : ℚ) ≤ h := by exact_mod_cast h1
  have hq2 : (h : ℚ) < 2 ^ 31 := by exact_mod_cast h2
  have hneg : ¬ (0 : ℚ) ≤ D := by linarith
  have hc1 : ⌈D⌉ ≤ -1 := by
    rw [Int.ceil_le]; push_cast; linarith
  have hc2 : D ≤ ⌈D⌉ := Int.le_ceil D
  have hc3 : INT_MIN ≤ ⌈D⌉ := by
    have : ((-2 ^ 31 : ℤ) : ℚ) ≤ (⌈D⌉ : ℚ) := by
      push_cast
      linarith
    unfold INT_MIN
    exact_mod_cast this
  refine ⟨⌈D⌉, ?_, hc1, by linarith⟩
  rw [hD]
  simp only [F32.toInt, truncQ, if_neg hneg]
  rw [if_pos ⟨hc3, by unfold INT_MAX; omega⟩]

theorem cAdd_one (s : ℤ) (h0 : 0 ≤ s) (h1 : s < 2 ^ 31 - 1) : cAdd s 1 = .ok (s + 1) := by
  unfold cAdd INT_MIN INT_MAX
  rw [if_pos (by constructor <;> omega)]

theorem cRem_neg (t d : ℤ) (ht : 0 ≤ t) (hd : d < 0) : cRem t d = .ok (t % (-d)) := by
  unfold cRem
  rw [if_neg (by omega), if_neg (by unfold INT_MIN; omega)]
  congr 1
  rw [← Int.tmod_neg, Int.tmod_eq_emod ht (by omega)]

/-- The star update for a window height from 2 to `INT_MAX`. -/
theorem updateStars_tall (h s : ℤ) (h1 : 2 ≤ h) (h2 : h < 2 ^ 31) (hs0 : 0 ≤ s)
    (hs1 : s < 2 ^ 31 - 1) :
    ∃ d : ℤ, starsDivisor h = .ok d ∧ d < 0 ∧ updateStars h s = .ok ((s + 1) % (-d)) ∧
      0 ≤ (s + 1) % (-d) ∧ (s + 1) % (-d) < -d ∧ (s + 1) % (-d) < 2 ^ 31 - 1 := by
  obtain ⟨d, hd, hneg, hlo⟩ := starsDivisor_tall h h1 h2
  have hm1 : 0 ≤ (s + 1) % (-d) := Int.emod_nonneg _ (by omega)
  have hm2 : (s + 1) % (-d) < -d := Int.emod_lt_of_pos _ (by omega)
  have hbound : -d < 2 ^ 31 - 1 := by
    have hq2 : (h : ℚ) < 2 ^ 31 := by exact_mod_cast h2
    have : ((-d : ℤ) : ℚ) < ((2 ^ 31 - 1 : ℤ) : ℚ) := by
      push_cast
      linarith
    exact_mod_cast this
  refine ⟨d, hd, by omega, ?_, hm1, hm2, by omega⟩
  unfold updateStars
  rw [cAdd_one s hs0 hs1, hd]
  exact cRem_neg (s + 1) d (by omega) (by omega)

/-- The counterpart of `run_invariant` for runs whose inputs all satisfy `Q`. -/
theorem run_invariant_on (P : State → Prop) (Q : Input → Prop)
    (hev : ∀ s e s1, P s → handleEvent s e = .ok s1 → P s1)
    (hup : ∀ s w h s1, Q (Input.frame w h) → P s → update h s = .ok s1 → P s1) :
    ∀ (inputs : List Input) (s s1 : State), (∀ inp ∈ inputs, Q inp) → P s →
      run s inputs = .ok s1 → P s1 := by
  intro inputs
  induction inputs with
  | nil =>
    intro s s1 _ hP h
    simp only [run, Except.ok.injEq] at h
    exact h ▸ hP
  | cons inp rest ih =>
    intro s s1 hQ hP h
    have hQrest : ∀ i ∈ rest, Q i := fun i hi => hQ i (List.mem_cons_of_mem _ hi)
    cases inp with
    | event e =>
      by_cases hq : e = SDL_QUIT
      · subst hq
        simp only [run, Except.ok.injEq] at h
        exact h ▸ hP
      · cases hh : handleEvent s e with
        | error f => rw [run_event_error s f e rest hh] at h; simp at h
        | ok s2 =>
          rw [run_event_ok s s2 e rest hq hh] at h
          exact ih s2 s1 hQrest (hev s e s2 hP hh) h
    | frame w ht =>
      cases hh : update ht s with
      | error f => simp [run, hh] at h
      | ok s2 =>
        rw [run_frame_ok s s2 w ht rest hh] at h
        exact ih s2 s1 hQrest (hup s w ht s2 (hQ _ (List.mem_cons_self _ _)) hP hh) h

theorem handleEvent_stars_top (s s1 : State) (e : SDL_Event) (h : handleEvent s e = .ok s1) :
    s1.stars_top = s.stars_top := by
  cases e with
  | SDL_QUIT => simp only [handleEvent, Except.ok.injEq] at h; rw [← h]
  | SDL_OTHER => simp only [handleEvent, Except.ok.injEq] at h; rw [← h]
  | SDL_KEYUP k =>
    simp only [handleEvent, Except.ok.injEq] at h
    rw [← h]
    unfold keyUp
    split_ifs <;> rfl
  | SDL_KEYDOWN k =>
    simp only [handleEvent] at h
    cases k <;> simp only [keyDown] at h
    case SDL_SCANCODE_SPACE =>
      split_ifs at h
      simp only [Except.ok.injEq] at h
      rw [← h]
    all_goals
      simp only [Except.ok.injEq] at h
      rw [← h]

theorem update_stars_top (s s1 : State) (h : ℤ) (hu : update h s = .ok s1) :
    updateStars h s.stars_top = .ok s1.stars_top := by
  unfold update at hu
  split at hu
  · simp at hu
  · rename_i t ht
    split at hu
    · simp at hu
    · simp only [Except.ok.injEq] at hu
      rw [← hu, ht]

theorem stars_run (mem : ℕ → bullet) (inputs : List Input) (s : State)
    (hQ : ∀ inp ∈ inputs, tallFrame inp) (h : run (init mem) inputs = .ok s) :
    0 ≤ s.stars_top ∧ s.stars_top < 2 ^ 31 - 1 := by
  refine run_invariant_on (fun s => 0 ≤ s.stars_top ∧ s.stars_top < 2 ^ 31 - 1) tallFrame ?_ ?_
    inputs (init mem) s hQ ?_ h
  · intro s e s1 hP hh
    rw [handleEvent_stars_top s s1 e hh]
    exact hP
  · intro s w ht s1 hq hP hu
    obtain ⟨d, -, -, hst, h0, -, h31⟩ := updateStars_tall ht s.stars_top hq.1 hq.2 hP.1 hP.2
    have := update_stars_top s s1 ht hu
    rw [hst] at this
    simp only [Except.ok.injEq] at this
    rw [← this]
    exact ⟨h0, h31⟩
  · simp [init]

theorem updateStars_divByZero (h s : ℤ) (hh : h = 0 ∨ h = 1) (hs0 : 0 ≤ s)
    (hs1 : s < 2 ^ 31 - 1) : updateStars h s = .error Fault.divByZero := by
  have hd : starsDivisor h = .ok 0 := by
    rcases hh with rfl | rfl
    · exact starsDivisor_zero
    · exact starsDivisor_one
  unfold updateStars
  rw [cAdd_one s hs0 hs1, hd]
  simp [cRem]

theorem starsDivisor_sign (h : ℤ) (h0 : 0 ≤ h) (h31 : h < 2 ^ 31) :
    ∃ d : ℤ, starsDivisor h = .ok d ∧ d ≤ 0 ∧ (2 ≤ h → d < 0) ∧ (d = 0 ↔ h = 0 ∨ h = 1) := by
  by_cases h2 : 2 ≤ h
  · obtain ⟨d, hd, hneg, -⟩ := starsDivisor_tall h h2 h31
    exact ⟨d, hd, by omega, fun _ => by omega, by omega⟩
  · have hh : h = 0 ∨ h = 1 := by omega
    refine ⟨0, ?_, le_refl _, fun h => absurd h h2, by simp [hh]⟩
    rcases hh with rfl | rfl
    · exact starsDivisor_zero
    · exact starsDivisor_one

theorem tallFrame_frame600 : tallFrame frame600 := by
  unfold frame600 tallFrame INIT_SCREEN_HEIGHT
  norm_num

theorem two_frames_run : ∃ s, run (init zeroMem) [frame600, frame600] = .ok s := by
  obtain ⟨s2, hu2, hst2, -, hr2⟩ := update_ok (init zeroMem) 600 _
    (updateStars_600 (init zeroMem).stars_top (le_refl _) (by decide)) (reach_init zeroMem)
  have e2 : s2.stars_top = 1 := by rw [hst2]; rfl
  obtain ⟨s3, hu3, -, -, -⟩ := update_ok s2 600 _
    (updateStars_600 s2.stars_top (by rw [e2]; norm_num) (by rw [e2]; norm_num)) hr2
  refine ⟨s3, ?_⟩
  rw [frame600, INIT_SCREEN_HEIGHT, run_frame_ok _ _ _ _ _ hu2, run_frame_ok _ _ _ _ _ hu3, run_nil]

theorem spec_stars_top_600 : spec_stars_top 600 0 = 0 := by
  unfold spec_stars_top spec_modulus
  have e : ((600 : ℤ) : ℚ) - 1024 * (((600 : ℤ) : ℚ) / 600) = ((-424 : ℤ) : ℚ) := by norm_num
  rw [e, truncQ_intCast]
  decide

/-! ## The claims -/

/-- C1 (player clamp invariant).  The clamp bounds the code computes from
`player_hitbox = (25, 51)` are `[-187.5, 187.5]` for `x` and `[-274.5, 274.5]`
for `y`.  The player update returns a position within them for every position
and velocity (so in particular for a position within them and a velocity with
axes in `-5`, `0`, `5`); the position is within them at the end of every run
from the initial state, whatever the events, the number of frames and the window
sizes; and the update at velocity zero, hence a frame at velocity zero, returns
an in-bounds position itself. -/
theorem player_clamp_invariant :
    xBounds = (F32.fin (-375 / 2), F32.fin (375 / 2)) ∧
    yBounds = (F32.fin (-549 / 2), F32.fin (549 / 2)) ∧
    (∀ pos vel : vec2, inBounds (updatePlayer pos vel)) ∧
    (∀ (mem : ℕ → bullet) (inputs : List Input) (s : State),
      run (init mem) inputs = .ok s → inBounds s.player_pos) ∧
    (∀ pos : vec2, inBounds pos → pos.x.isBinary32 → pos.y.isBinary32 →
      updatePlayer pos { x := F32.fin 0, y := F32.fin 0 } = pos) ∧
    (∀ (s s1 : State) (h : ℤ), inBounds s.player_pos → s.player_pos.x.isBinary32 →
      s.player_pos.y.isBinary32 → s.player_vel = { x := F32.fin 0, y := F32.fin 0 } →
      update h s = .ok s1 → s1.player_pos = s.player_pos) := by
  refine ⟨xBounds_eq, yBounds_eq, inBounds_updatePlayer, run_inBounds, updatePlayer_zero, ?_⟩
  intro s s1 h hb hx hy hv hu
  rw [update_player_pos s s1 h hu, hv]
  exact updatePlayer_zero _ hb hx hy

/-- Witness of C1: the position after a W key-down and a frame is within the
bounds, and the update at velocity zero returns the initial position `(0, -150)`. -/
theorem player_clamp_invariant_witness :
    (∃ s, run (init zeroMem) [Input.event (SDL_KEYDOWN SDL_SCANCODE_W), frame600] = .ok s ∧
      inBounds s.player_pos) ∧
    inBounds { x := F32.fin 0, y := F32.fin (-150) } ∧
    updatePlayer { x := F32.fin 0, y := F32.fin (-150) } { x := F32.fin 0, y := F32.fin 0 } =
      { x := F32.fin 0, y := F32.fin (-150) } := by
  have hb : inBounds { x := F32.fin 0, y := F32.fin (-150) } := by
    rw [inBounds_iff]; norm_num
  refine ⟨?_, hb, player_clamp_invariant.2.2.2.2.1 _ hb isBinary32_zero isBinary32_neg150⟩
  obtain ⟨s, hs, -⟩ := hold_W zeroMem 1
  exact ⟨s, hs, player_clamp_invariant.2.2.2.1 zeroMem _ s hs⟩

/-- C2 (projectile update pass).  For every array and live count `n ≤ 512` such
that every live projectile, advanced, has a finite `x` with `|x| < 2 ^ 31` (the
condition under which `(int) x` and `abs` are defined), the bullet loop returns.
The live collection afterwards is a permutation of the list `kept`, obtained from
the input projectiles by replacing each position by `pos + vel` (type and
velocity unchanged) and keeping those whose new `x` lies strictly between `-201`
and `201`, that is `abs ((int) x) ≤ 200`.  So every input is advanced exactly
once and tested, every live projectile afterwards is within the threshold and
fails the removal test, and the new count is the number of survivors. -/
theorem bullet_pass (a : ℕ → bullet) (n : ℕ) (hn : n ≤ MAX_BULLETS)
    (hsafe : ∀ j, j < n →
      ∃ q : ℚ, F32.add (a j).pos.x (a j).vel.x = F32.fin q ∧ -2 ^ 31 < q ∧ q < 2 ^ 31) :
    ∃ (a1 : ℕ → bullet) (n1 : ℕ) (kept : List bullet),
      updateBullets a n 0 = .ok (a1, n1) ∧
      kept = (((List.range n).map a).map (fun b =>
          ({ type := b.type
             vel := b.vel
             pos := { x := F32.add b.pos.x b.vel.x, y := F32.add b.pos.y b.vel.y } } : bullet))).filter
        (fun b => match b.pos.x with
          | F32.fin q => decide (-201 < q ∧ q < 201)
          | _ => false) ∧
      List.Perm ((List.range n1).map a1) kept ∧
      n1 = kept.length ∧ n1 ≤ n ∧ n1 ≤ MAX_BULLETS ∧
      ∀ j, j < n1 → removalTest (a1 j) = .ok false ∧
        ∃ q : ℚ, (a1 j).pos.x = F32.fin q ∧ -201 < q ∧ q < 201 := by
  have hdef : ∀ j, j < n → testDefined (advance (a j)) := by
    intro j hj
    obtain ⟨q, hx, h1, h2⟩ := hsafe j hj
    obtain ⟨r1, r2⟩ := truncQ_int_range q h1 h2
    exact (testDefined_iff _).mpr ⟨q, hx, r1, r2⟩
  obtain ⟨a1, n1, hrun, hle, hperm⟩ := updateBullets_perm a n hdef
  have hfilter : ((live a n).map advance).filter survives =
      (((List.range n).map a).map (fun b =>
          ({ type := b.type
             vel := b.vel
             pos := { x := F32.add b.pos.x b.vel.x, y := F32.add b.pos.y b.vel.y } } : bullet))).filter
        (fun b => match b.pos.x with
          | F32.fin q => decide (-201 < q ∧ q < 201)
          | _ => false) := by
    apply List.filter_congr
    intro b hb
    obtain ⟨b0, hb0, rfl⟩ := List.mem_map.mp hb
    obtain ⟨j, hj, rfl⟩ := List.mem_map.mp hb0
    rw [List.mem_range] at hj
    obtain ⟨q, hx, h1, h2⟩ := hsafe j hj
    have hx1 : (advance (a j)).pos.x = F32.fin q := hx
    rw [survives_eq _ q hx1 h1 h2]
    simp only [hx1]
  rw [hfilter] at hperm
  refine ⟨a1, n1, _, hrun, rfl, hperm, ?_, hle, le_trans hle hn, ?_⟩
  · have := hperm.length_eq
    rw [length_live] at this
    exact this
  · intro j hj
    have hm := hperm.subset (List.mem_map.mpr ⟨j, List.mem_range.mpr hj, rfl⟩)
    rw [← hfilter] at hm
    have hs : survives (a1 j) = true := (List.mem_filter.mp hm).2
    have ht := removalTest_of_survives _ hs
    obtain ⟨q, hx, -, -, hd⟩ := testDefined_of_ok _ _ ht
    refine ⟨ht, q, hx, ?_⟩
    have h200 : |truncQ q| ≤ 200 := by
      have := of_decide_eq_false hd.symm
      omega
    exact (abs_truncQ_le_iff q).mp h200

/-- Witness of C2: four live projectiles.  Advanced, their `x` are `201`,
`200.5`, `-200.5`, `-201`.  The first is removed; the fourth is swapped into its
slot, advanced and removed on the same pass; the two left are the second and
the third, at `(200.5, 5)` and `(-200.5, 5)`. -/
theorem bullet_pass_witness :
    4 ≤ MAX_BULLETS ∧
    (∀ j, j < 4 →
      ∃ q : ℚ, F32.add (demoMem j).pos.x (demoMem j).vel.x = F32.fin q ∧ -2 ^ 31 < q ∧ q < 2 ^ 31) ∧
    ∃ a1, updateBullets demoMem 4 0 = .ok (a1, 2) ∧
      List.Perm [a1 0, a1 1]
        [{ type := bullet_type.BULLET
           vel := { x := F32.fin (-3 / 2), y := F32.fin 5 }
           pos := { x := F32.fin (401 / 2), y := F32.fin 5 } },
         { type := bullet_type.BULLET
           vel := { x := F32.fin 1, y := F32.fin 5 }
           pos := { x := F32.fin (-401 / 2), y := F32.fin 5 } }] := by
  refine ⟨by decide, fun j _ => demoMem_defined j, ?_⟩
  obtain ⟨a1, n1, kept, hrun, hkept, hperm, hn, -⟩ :=
    bullet_pass demoMem 4 (by decide) (fun j _ => demoMem_defined j)
  have hk : kept =
      [{ type := bullet_type.BULLET
         vel := { x := F32.fin (-3 / 2), y := F32.fin 5 }
         pos := { x := F32.fin (401 / 2), y := F32.fin 5 } },
       { type := bullet_type.BULLET
         vel := { x := F32.fin 1, y := F32.fin 5 }
         pos := { x := F32.fin (-401 / 2), y := F32.fin 5 } }] := by
    rw [hkept]
    simp only [List.range_succ, List.range_zero, List.nil_append, List.cons_append, List.map_cons,
      List.map_nil, demoMem_step_x, demoMem_step_y]
    norm_num [List.filter, demoMem, demoBullet]
  rw [hk] at hperm hn
  simp only [List.length_cons, List.length_nil] at hn
  subst hn
  refine ⟨a1, hrun, ?_⟩
  simpa [List.range_succ] using hperm

/-- C3 (key-up guard).  For every state: a key-up of D, A, W or S whose guard
(`vel.x > 0`, `vel.x < 0`, `vel.y > 0`, `vel.y < 0`) is false returns the state
itself; when the guard is true the result is the state with exactly that axis of
the velocity set to `0`.  Key-down A, key-down D, key-up A from any state ends
with `vel.x = 5`. -/
theorem keyUp_guard (s : State) :
    (F32.gt s.player_vel.x (F32.fin 0) = false → keyUp s SDL_SCANCODE_D = s) ∧
    (F32.lt s.player_vel.x (F32.fin 0) = false → keyUp s SDL_SCANCODE_A = s) ∧
    (F32.gt s.player_vel.y (F32.fin 0) = false → keyUp s SDL_SCANCODE_W = s) ∧
    (F32.lt s.player_vel.y (F32.fin 0) = false → keyUp s SDL_SCANCODE_S = s) ∧
    (F32.gt s.player_vel.x (F32.fin 0) = true →
      keyUp s SDL_SCANCODE_D = { s with player_vel := { x := F32.fin 0, y := s.player_vel.y } }) ∧
    (F32.lt s.player_vel.x (F32.fin 0) = true →
      keyUp s SDL_SCANCODE_A = { s with player_vel := { x := F32.fin 0, y := s.player_vel.y } }) ∧
    (F32.gt s.player_vel.y (F32.fin 0) = true →
      keyUp s SDL_SCANCODE_W = { s with player_vel := { x := s.player_vel.x, y := F32.fin 0 } }) ∧
    (F32.lt s.player_vel.y (F32.fin 0) = true →
      keyUp s SDL_SCANCODE_S = { s with player_vel := { x := s.player_vel.x, y := F32.fin 0 } }) ∧
    ∃ s1, run s [Input.event (SDL_KEYDOWN SDL_SCANCODE_A), Input.event (SDL_KEYDOWN SDL_SCANCODE_D),
        Input.event (SDL_KEYUP SDL_SCANCODE_A)] = .ok s1 ∧
      s1 = { s with player_vel := { x := F32.fin 5, y := s.player_vel.y } } := by
  refine ⟨?_, ?_, ?_, ?_, ?_, ?_, ?_, ?_, ?_⟩
  · intro h; rw [keyUp_D, h]; simp
  · intro h; rw [keyUp_A, h]; simp
  · intro h; rw [keyUp_W, h]; simp
  · intro h; rw [keyUp_S, h]; simp
  · intro h; rw [keyUp_D, if_pos h]
  · intro h; rw [keyUp_A, if_pos h]
  · intro h; rw [keyUp_W, if_pos h]
  · intro h; rw [keyUp_S, if_pos h]
  · refine ⟨_, ?_, rfl⟩
    rw [run_event_ok _ _ _ _ (by simp) (by simp only [handleEvent]; exact keyDown_A s),
      run_event_ok _ _ _ _ (by simp) (by simp only [handleEvent]; exact keyDown_D _),
      run_event_ok _ _ _ _ (by simp) (by simp only [handleEvent]; rfl), run_nil, keyUp_A]
    simp [F32.lt]

/-- Witness of C3: with the player moving right, a key-up of A changes nothing
and a key-up of D sets `vel.x` to `0`. -/
theorem keyUp_guard_witness :
    F32.lt movingRight.player_vel.x (F32.fin 0) = false ∧
    keyUp movingRight SDL_SCANCODE_A = movingRight ∧
    F32.gt movingRight.player_vel.x (F32.fin 0) = true ∧
    keyUp movingRight SDL_SCANCODE_D =
      { movingRight with player_vel := { x := F32.fin 0, y := movingRight.player_vel.y } } :=
  ⟨movingRight_lt, (keyUp_guard movingRight).2.1 movingRight_lt, movingRight_gt,
    (keyUp_guard movingRight).2.2.2.2.1 movingRight_gt⟩

/-- C4, counterexample.  With the player at `(0, -150)` and no live projectile, the
projectile a fire key-down stores at index `0` is at `(0, -125)`: its `y` is
neither the `-124.4` of the claim nor the `float` nearest to it. -/
theorem fire_placement_counterexample :
    keyDown (init zeroMem) SDL_SCANCODE_SPACE =
      .ok { init zeroMem with
        bullets := Function.update zeroMem 0
          { type := bullet_type.BULLET
            vel := { x := F32.fin 0, y := F32.fin 5 }
            pos := { x := F32.fin 0, y := F32.fin (-125) } }
        n_bullets := 1 } ∧
    (-125 : ℚ) ≠ spec_fire_y (-150) ∧ F32.fin (-125) ≠ F32.ofRat (spec_fire_y (-150)) := by
  refine ⟨?_, by norm_num [spec_fire_y], neg125_ne_spec⟩
  rw [keyDown_SPACE _ (by simp [init, MAX_BULLETS])]
  simp only [init_eq, add_neg150_25]

/-- C4 as amended (fire placement).  For every state with fewer than 512 live
projectiles, a fire key-down returns the state in which index `n_bullets` holds
a projectile of type `BULLET` with velocity `(0, 5)` and position
`(px, py + 25)` (a `float` sum; `25` is the `int` quotient `PLAYER_H / 2` of
`PLAYER_H = 51`), the count is one more, and every other array element, the
player and `stars_top` are as before.  With the player at `(0, -150)` the
projectile is at `(0, -125)`. -/
theorem fire_placement (s : State) (h : s.n_bullets < 512) :
    ∃ s1, keyDown s SDL_SCANCODE_SPACE = .ok s1 ∧
      s1.bullets s.n_bullets =
        { type := bullet_type.BULLET
          vel := { x := F32.fin 0, y := F32.fin 5 }
          pos := { x := s.player_pos.x, y := F32.add s.player_pos.y (F32.fin 25) } } ∧
      s1.n_bullets = s.n_bullets + 1 ∧
      (∀ i, i ≠ s.n_bullets → s1.bullets i = s.bullets i) ∧
      s1.player_pos = s.player_pos ∧ s1.player_vel = s.player_vel ∧ s1.stars_top = s.stars_top ∧
      (s.player_pos = { x := F32.fin 0, y := F32.fin (-150) } →
        (s1.bullets s.n_bullets).pos = { x := F32.fin 0, y := F32.fin (-125) }) := by
  refine ⟨_, keyDown_SPACE s h, ?_, rfl, ?_, rfl, rfl, rfl, ?_⟩
  · simp
  · intro i hi
    simp [Function.update_noteq hi]
  · intro hp
    simp [hp, add_neg150_25]

/-- Witness of C4 as amended: the first shot of a run is stored at index `0`, at
`(0, -125)`. -/
theorem fire_placement_witness :
    (init zeroMem).n_bullets < 512 ∧
    ∃ s1, keyDown (init zeroMem) SDL_SCANCODE_SPACE = .ok s1 ∧
      (s1.bullets 0).vel = { x := F32.fin 0, y := F32.fin 5 } ∧
      (s1.bullets 0).pos = { x := F32.fin 0, y := F32.fin (-125) } ∧
      s1.n_bullets = 1 := by
  have hlt : (init zeroMem).n_bullets < 512 := by simp [init]
  refine ⟨hlt, ?_⟩
  obtain ⟨s1, h1, h2, h3, -, -, -, -, h4⟩ := fire_placement (init zeroMem) hlt
  exact ⟨s1, h1, by rw [show (0 : ℕ) = (init zeroMem).n_bullets from rfl, h2],
    h4 (by rw [init_eq]), h3⟩

/-- C5, the code at the failing input.  From the initial state, 512 fire
key-downs give 512 live projectiles and the next one writes `bullets[512]`, past
the end of the array. -/
theorem fire_past_capacity (mem : ℕ → bullet) :
    (∃ s, run (init mem) (List.replicate 512 fire) = .ok s ∧ s.n_bullets = 512) ∧
    run (init mem) (List.replicate 513 fire) = .error Fault.outOfBounds := by
  constructor
  · obtain ⟨s, h1, h2⟩ := fire_run 512 (init mem) (by simp [init, MAX_BULLETS])
    exact ⟨s, h1, by simpa [init] using h2⟩
  · exact fire_overflow 512 (init mem) (by simp [init, MAX_BULLETS])

/-- C6, counterexample.  At window height 600 and `stars_top = 0` the frame
update sets `stars_top` to `1`, the specification's formula gives
`(0 + 1) mod max(1, 600 - 1024) = 0`; and at window height 0 the update is a
remainder by zero. -/
theorem stars_scroll_counterexample :
    updateStars 600 0 = .ok 1 ∧ spec_stars_top 600 0 = 0 ∧
      updateStars 0 0 = .error Fault.divByZero :=
  ⟨updateStars_600 0 (le_refl _) (by norm_num), spec_stars_top_600,
    updateStars_divByZero 0 0 (Or.inl rfl) (le_refl _) (by norm_num)⟩

/-- C6 as amended (star scroll).  For every window height `h` from 2 up (an
`int`) and every previous value `s ≥ 0` (below `INT_MAX`), the divisor
`d = (int) (h - 1024 * scale_h)` is negative, the frame update sets `stars_top`
to `(s + 1) mod |d|` with `|d| ≥ 1`, and that value lies in `[0, |d|)`. -/
theorem stars_scroll (h s : ℤ) (h2 : 2 ≤ h) (h31 : h < 2 ^ 31) (hs0 : 0 ≤ s)
    (hs1 : s < 2 ^ 31 - 1) :
    ∃ d : ℤ, starsDivisor h = .ok d ∧ d < 0 ∧ 1 ≤ |d| ∧
      updateStars h s = .ok ((s + 1) % |d|) ∧ 0 ≤ (s + 1) % |d| ∧ (s + 1) % |d| < |d| := by
  obtain ⟨d, hd, hneg, hst, hm0, hm1, -⟩ := updateStars_tall h s h2 h31 hs0 hs1
  have ha : |d| = -d := abs_of_neg hneg
  refine ⟨d, hd, hneg, ?_⟩
  rw [ha]
  exact ⟨by omega, hst, hm0, hm1⟩

/-- Witness of C6 as amended: window height 600, `stars_top = 423`. -/
theorem stars_scroll_witness :
    (2 : ℤ) ≤ 600 ∧ (600 : ℤ) < 2 ^ 31 ∧ (0 : ℤ) ≤ 423 ∧ (423 : ℤ) < 2 ^ 31 - 1 ∧
    ∃ d : ℤ, starsDivisor 600 = .ok d ∧ d < 0 ∧ 1 ≤ |d| ∧
      updateStars 600 423 = .ok ((423 + 1) % |d|) ∧ 0 ≤ (423 + 1) % |d| ∧ (423 + 1) % |d| < |d| :=
  ⟨by norm_num, by norm_num, by norm_num, by norm_num,
    stars_scroll 600 423 (by norm_num) (by norm_num) (by norm_num) (by norm_num)⟩

/-- C7 (last write wins).  From every state, a non-empty sequence of key-down
events of A and D ends with `vel.x` equal to the speed of the last key alone
(`5` for D, `-5` for A) and everything else, `vel.y` included, as before; the
same for W and S (`5` for W, `-5` for S) with the axes exchanged. -/
theorem keyDown_last_write_wins (s : State) (keys : List SDL_Scancode) (hne : keys ≠ []) :
    ((∀ k ∈ keys, k = SDL_SCANCODE_A ∨ k = SDL_SCANCODE_D) →
      run s (keyDowns keys) =
        .ok { s with player_vel := { x := implied_speed (keys.getLast hne), y := s.player_vel.y } }) ∧
    ((∀ k ∈ keys, k = SDL_SCANCODE_W ∨ k = SDL_SCANCODE_S) →
      run s (keyDowns keys) =
        .ok { s with player_vel := { x := s.player_vel.x, y := implied_speed (keys.getLast hne) } }) :=
  ⟨fun h => keyDowns_x keys hne h s, fun h => keyDowns_y keys hne h s⟩

/-- Witness of C7: after D, A, A, D from the initial state `vel.x` is `5`, and
after W, S it is `vel.y` that is `-5`. -/
theorem keyDown_last_write_wins_witness :
    run (init zeroMem) (keyDowns [SDL_SCANCODE_D, SDL_SCANCODE_A, SDL_SCANCODE_A, SDL_SCANCODE_D]) =
      .ok { init zeroMem with
        player_vel := { x := F32.fin 5, y := (init zeroMem).player_vel.y } } ∧
    run (init zeroMem) (keyDowns [SDL_SCANCODE_W, SDL_SCANCODE_S]) =
      .ok { init zeroMem with
        player_vel := { x := (init zeroMem).player_vel.x, y := F32.fin (-5) } } :=
  ⟨(keyDown_last_write_wins (init zeroMem) [SDL_SCANCODE_D, SDL_SCANCODE_A, SDL_SCANCODE_A,
      SDL_SCANCODE_D] (by simp)).1 (by simp),
   (keyDown_last_write_wins (init zeroMem) [SDL_SCANCODE_W, SDL_SCANCODE_S] (by simp)).2 (by simp)⟩

/-- C8, counterexample.  With W held for 85 frames from the initial state the
player is at `y = 274.5`, above the `274.4 = (600 - 51.2) / 2` that the claim
gives as the bound never exceeded (and not the `float` nearest to it). -/
theorem move_up_counterexample :
    posAfter (init zeroMem) (Input.event (SDL_KEYDOWN SDL_SCANCODE_W) :: List.replicate 85 frame600) =
      some { x := F32.fin 0, y := F32.fin (549 / 2) } ∧
    spec_held_y 85 = 1372 / 5 ∧ (549 / 2 : ℚ) ≠ spec_held_y 85 ∧
    F32.fin (549 / 2) ≠ F32.ofRat (spec_held_y 85) := by
  have hv : spec_held_y 85 = 1372 / 5 := by
    unfold spec_held_y
    rw [min_eq_right (by norm_num)]
    norm_num
  refine ⟨?_, hv, by rw [hv]; norm_num, ?_⟩
  · obtain ⟨s, hs, hp⟩ := hold_W zeroMem 85
    have e : min (-150 + 5 * ((85 : ℕ) : ℚ)) (549 / 2) = 549 / 2 := by
      rw [min_eq_right (by norm_num)]
    rw [posAfter_ok _ _ _ hs, hp, e]
  · rw [hv]
    apply ofRat_ne_of_far
    · rw [abs_of_pos (by norm_num)]; norm_num
    · rw [abs_of_pos (by norm_num), abs_of_pos (by norm_num)]; norm_num

/-- C8 as amended (move up).  From the initial state, a W key-down and one frame
at the initial window size give the player position `(0, -145)`; with W held
for `k` frames it is `(0, min (-150 + 5 k) 274.5)`, the upper bound being
`(600 - 51) / 2 = 274.5` because `PLAYER_H` is the `int` 51. -/
theorem move_up (mem : ℕ → bullet) :
    (∃ s1, run (init mem) [Input.event (SDL_KEYDOWN SDL_SCANCODE_W), frame600] = .ok s1 ∧
      s1.player_pos = { x := F32.fin 0, y := F32.fin (-145) }) ∧
    (∀ k : ℕ, ∃ s1,
      run (init mem) (Input.event (SDL_KEYDOWN SDL_SCANCODE_W) :: List.replicate k frame600) = .ok s1 ∧
      s1.player_pos = { x := F32.fin 0, y := F32.fin (min (-150 + 5 * (k : ℚ)) (549 / 2)) }) ∧
    yBounds.2 = F32.fin (549 / 2) := by
  refine ⟨?_, hold_W mem, yBounds_snd⟩
  obtain ⟨s, hs, hp⟩ := hold_W mem 1
  refine ⟨s, hs, ?_⟩
  rw [hp, min_eq_left (by norm_num)]
  norm_num

/-- C9 (no reachable projectile is culled).  In every state at the end of a run
from the initial state, every live projectile has `vel.x = 0` and an `x` in
`[-187.5, 187.5]`, and its removal test is false before and after it is
advanced; the live count is at most 512; the bullet loop returns with the live
count it was given; and no further input (event or frame) makes the live count
smaller. -/
theorem no_bullet_culled (mem : ℕ → bullet) (inputs : List Input) (s : State)
    (h : run (init mem) inputs = .ok s) :
    s.n_bullets ≤ MAX_BULLETS ∧
    (∀ j, j < s.n_bullets →
      (s.bullets j).vel.x = F32.fin 0 ∧
      (∃ q : ℚ, (s.bullets j).pos.x = F32.fin q ∧ -375 / 2 ≤ q ∧ q ≤ 375 / 2) ∧
      removalTest (s.bullets j) = .ok false ∧
      removalTest (advance (s.bullets j)) = .ok false) ∧
    (∃ a1, updateBullets s.bullets s.n_bullets 0 = .ok (a1, s.n_bullets)) ∧
    (∀ (ht : ℤ) (s1 : State), update ht s = .ok s1 → s1.n_bullets = s.n_bullets) ∧
    (∀ (inp : Input) (s1 : State), run s [inp] = .ok s1 → s.n_bullets ≤ s1.n_bullets) := by
  have hr := reach_run mem inputs s h
  refine ⟨hr.2.2.1, ?_, ?_, ?_, ?_⟩
  · intro j hj
    obtain ⟨hv, m, hx, hm⟩ := hr.2.2.2 j hj
    obtain ⟨-, hax⟩ := advance_half _ m hv hx hm
    have hm2 := abs_le.mp hm
    have h1 : (-375 : ℚ) ≤ m := by exact_mod_cast hm2.1
    have h2 : (m : ℚ) ≤ 375 := by exact_mod_cast hm2.2
    exact ⟨hv, ⟨_, hx, by linarith, by linarith⟩, removalTest_half _ m hx hm,
      removalTest_half _ m hax hm⟩
  · obtain ⟨a1, hrun, -⟩ := updateBullets_reach s hr
    exact ⟨a1, hrun⟩
  · intro ht s1 hu
    exact (reach_update s ht s1 hr hu).2
  · intro inp s1 h1
    exact step_n_bullets s s1 inp hr h1

/-- Witness of C9: a shot followed by two frames. -/
theorem no_bullet_culled_witness :
    ∃ s, run (init zeroMem) [fire, frame600, frame600] = .ok s ∧ s.n_bullets = 1 ∧
      removalTest (s.bullets 0) = .ok false ∧
      ∃ a1, updateBullets s.bullets s.n_bullets 0 = .ok (a1, s.n_bullets) := by
  obtain ⟨s, hs, hn⟩ := fire_frame_run
  have hc := no_bullet_culled zeroMem _ s hs
  exact ⟨s, hs, hn, (hc.2.1 0 (by omega)).2.2.1, hc.2.2.1⟩

/-- C10 (sign of the star-scroll divisor).  For a window height `h ≥ 0` (an
`int`) the divisor `(int) (h - 1024 * (h / 600))` is never positive, is negative
for `h ≥ 2` (`-424` at `h = 600`), and is zero exactly for `h = 0` and `h = 1`,
where the frame update is a remainder by zero.  At the end of every run from
the initial state whose frames all have `h ≥ 2`, `stars_top` is non-negative,
and a further frame with `h ≥ 2` sets it to the truncated remainder of
`stars_top + 1` by the divisor `d` of that frame, which lies in `[0, |d|)`; at
`h = 600` it steps through `0 .. 423`. -/
theorem stars_divisor_sign :
    (∀ h : ℤ, 0 ≤ h → h < 2 ^ 31 →
      ∃ d : ℤ, starsDivisor h = .ok d ∧ d ≤ 0 ∧ (2 ≤ h → d < 0) ∧ (d = 0 ↔ h = 0 ∨ h = 1)) ∧
    starsDivisor 600 = .ok (-424) ∧
    (∀ h s : ℤ, h = 0 ∨ h = 1 → 0 ≤ s → s < 2 ^ 31 - 1 →
      updateStars h s = .error Fault.divByZero) ∧
    (∀ (mem : ℕ → bullet) (inputs : List Input) (s : State),
      (∀ inp ∈ inputs, tallFrame inp) → run (init mem) inputs = .ok s →
      0 ≤ s.stars_top ∧
      ∀ h : ℤ, 2 ≤ h → h < 2 ^ 31 →
        ∃ d : ℤ, starsDivisor h = .ok d ∧ d < 0 ∧
          updateStars h s.stars_top = .ok (Int.tmod (s.stars_top + 1) d) ∧
          0 ≤ Int.tmod (s.stars_top + 1) d ∧ Int.tmod (s.stars_top + 1) d < |d| ∧
          ∀ s1, update h s = .ok s1 → s1.stars_top = Int.tmod (s.stars_top + 1) d) ∧
    (∀ t : ℤ, 0 ≤ t → t < 424 → updateStars 600 t = .ok ((t + 1) % 424)) := by
  refine ⟨starsDivisor_sign, starsDivisor_600, updateStars_divByZero, ?_, updateStars_600⟩
  intro mem inputs s hQ hrun
  obtain ⟨h0, h1⟩ := stars_run mem inputs s hQ hrun
  refine ⟨h0, ?_⟩
  intro h h2 h31
  obtain ⟨d, hd, hneg, hst, hm0, hm1, -⟩ := updateStars_tall h s.stars_top h2 h31 h0 h1
  have ht : Int.tmod (s.stars_top + 1) d = (s.stars_top + 1) % (-d) := by
    rw [← Int.tmod_neg, Int.tmod_eq_emod (by omega) (by omega)]
  refine ⟨d, hd, hneg, ?_⟩
  rw [ht, abs_of_neg hneg]
  refine ⟨hst, hm0, hm1, ?_⟩
  intro s1 hu
  have := update_stars_top s s1 h hu
  rw [hst] at this
  simp only [Except.ok.injEq] at this
  exact this.symm

/-- Witness of C10: after two frames at window height 600 a third frame at that
height has divisor `-424` and leaves `stars_top` in `[0, 424)`. -/
theorem stars_divisor_sign_witness :
    (∀ inp ∈ [frame600, frame600], tallFrame inp) ∧
    ∃ s, run (init zeroMem) [frame600, frame600] = .ok s ∧ 0 ≤ s.stars_top ∧
      ∃ d : ℤ, starsDivisor 600 = .ok d ∧ d < 0 ∧
        updateStars 600 s.stars_top = .ok (Int.tmod (s.stars_top + 1) d) ∧
        0 ≤ Int.tmod (s.stars_top + 1) d ∧ Int.tmod (s.stars_top + 1) d < |d| := by
  have hQ : ∀ inp ∈ [frame600, frame600], tallFrame inp := by
    intro inp hinp
    simp only [List.mem_cons, List.mem_singleton, List.not_mem_nil, or_false, or_self] at hinp
    rw [hinp]
    exact tallFrame_frame600
  obtain ⟨s, hs⟩ := two_frames_run
  obtain ⟨h0, hstep⟩ := stars_divisor_sign.2.2.2.1 zeroMem _ s hQ hs
  obtain ⟨d, hd, hneg, hst, hm0, hm1, -⟩ := hstep 600 (by norm_num) (by norm_num)
  exact ⟨hQ, s, hs, h0, d, hd, hneg, hst, hm0, hm1⟩

end SpaceHell
